/-
  Verification of the journalr repository's core specification.

  Shallow embedding of the journal record store (src/dataStore.ts) and the
  derived-analytics functions (src/index.tsx): word counting, the Sync
  Coordinator operations over a Local Cache (localStorage) and a Remote
  Store (the supabase `journal_entries` table), streak calculation,
  dominant-category selection, word-count history, the keyword analyzer
  and the word-cloud builder.

  Modelling conventions:
  * `localStorage` is a finite association list `List (String × String)`;
    `localStorage.setItem` is `mapSet` (replace-first-or-append), and
    `Object.keys` enumerates the keys in list order.  The observable
    results proved below do not depend on that order.
  * The remote table is a `List Row`; reachability of the Remote Store is
    an explicit `Bool` passed per operation (`true` = the supabase call
    succeeds, `false` = it throws and the `catch` branch runs).
  * `async` functions that can reject are embedded with `Except String`
    results; a function that returns normally yields `Except.ok`.
  * JavaScript `Date` values at day granularity are embedded as integers
    (one unit = one day); the `updated_at` column is omitted because no
    modelled operation reads it.
-/
import Mathlib

/-! ## Character and string utilities (JS regex fragments used by the source) -/

/-- JS `\w` word characters: `[A-Za-z0-9_]` (ASCII only). -/
def isJsWordChar (c : Char) : Bool :=
  (97 ≤ c.toNat && c.toNat ≤ 122) || (65 ≤ c.toNat && c.toNat ≤ 90) ||
    (48 ≤ c.toNat && c.toNat ≤ 57) || (c.toNat == 95)

/-- ASCII lower-case alphabetic, i.e. the JS regex class `[a-z]`. -/
def isLowerAlpha (c : Char) : Bool :=
  97 ≤ c.toNat && c.toNat ≤ 122

/-- ASCII case folding, the fragment of JS `toLowerCase()` relevant here. -/
def toLowerChar (c : Char) : Char :=
  if 65 ≤ c.toNat && c.toNat ≤ 90 then Char.ofNat (c.toNat + 32) else c

/-- Collect the maximal runs of characters satisfying `p`; `acc` holds the
current run in reverse.  This models splitting a string at the characters
not satisfying `p` and discarding empty pieces. -/
def runsAux (p : Char → Bool) : List Char → List Char → List (List Char)
  | acc, [] => if acc.isEmpty then [] else [acc.reverse]
  | acc, c :: rest =>
      if p c then runsAux p (c :: acc) rest
      else if acc.isEmpty then runsAux p [] rest
      else acc.reverse :: runsAux p [] rest

/-- `countWords` from src/dataStore.ts (and identically src/index.tsx):
`text.trim().split(/\s+/).filter(Boolean).length`, i.e. the number of
maximal runs of non-whitespace characters. -/
def countWords (s : String) : Nat :=
  (runsAux (fun c => !c.isWhitespace) [] s.data).length

/-! ## The Sync Coordinator (src/dataStore.ts) -/

/-- One row of the remote `journal_entries` table. -/
structure Row where
  user_email : String
  date_key : String
  content : String
  word_count : Nat
deriving DecidableEq, Repr

/-- The mutable state visible to the data store: the Local Cache
(`localStorage`) and the Remote Store table. -/
structure St where
  localStore : List (String × String)
  remote : List Row
deriving DecidableEq, Repr

/-- Association-list lookup (first match), modelling `Map.get` /
`localStorage.getItem`. -/
def mapGet {β : Type} : List (String × β) → String → Option β
  | [], _ => none
  | (k, v) :: t, key => if k = key then some v else mapGet t key

/-- Association-list update (replace first binding or append), modelling
`Map.set` / `localStorage.setItem`. -/
def mapSet {β : Type} : List (String × β) → String → β → List (String × β)
  | [], key, v => [(key, v)]
  | (k, w) :: t, key, v =>
      if k = key then (key, v) :: t else (k, w) :: mapSet t key v

def userEmailKey : String := "userEmail"

/-- `LOCAL_ENTRY_PREFIX` in src/dataStore.ts. -/
def entryPref : String := "local-journal-entry-"

/-- `localStorage.getItem(USER_EMAIL_KEY)` followed by the JS falsiness
test `if (!email)`: the empty string is as good as absent. -/
def getEmail (st : St) : Option String :=
  match mapGet st.localStore userEmailKey with
  | none => none
  | some e => if e = "" then none else some e

namespace DataStore

/-- The `.eq('user_email', email).eq('date_key', dateKey)` row filter. -/
def rowKeyMatch (email dateKey : String) (x : Row) : Bool :=
  decide (x.user_email = email ∧ x.date_key = dateKey)

/-- The `.eq('user_email', email)` row filter. -/
def rowUserMatch (email : String) (x : Row) : Bool :=
  decide (x.user_email = email)

/-- Supabase `upsert` with `onConflict: 'user_email,date_key'`: a row with
the same conflict key replaces the existing row, otherwise it is inserted. -/
def upsertRow (rows : List Row) (r : Row) : List Row :=
  if rows.any (rowKeyMatch r.user_email r.date_key) then
    rows.map (fun x => if rowKeyMatch r.user_email r.date_key x then r else x)
  else rows ++ [r]

/-- `dataStore.getEntry` (src/dataStore.ts:28-51).  With no (truthy) email
it returns `null`.  On a reachable remote, the single-row query result's
content (empty when absent, `data?.content || ''`) is mirrored into the
local cache and returned; on a remote failure the local cache value (or
`''`) is returned. -/
def getEntry (st : St) (remoteOk : Bool) (dateKey : String) :
    Except String (Option String) × St :=
  match getEmail st with
  | none => (Except.ok none, st)
  | some email =>
    if remoteOk then
      let row := st.remote.find? (rowKeyMatch email dateKey)
      let content := (row.map Row.content).getD ""
      (Except.ok (some content),
        { st with localStore := mapSet st.localStore (entryPref ++ dateKey) content })
    else
      (Except.ok (some ((mapGet st.localStore (entryPref ++ dateKey)).getD "")), st)

/-- `dataStore.saveEntry` (src/dataStore.ts:53-77).  Throws `'Not logged
in'` without an email; otherwise writes the local cache first and then
attempts the remote upsert, swallowing remote failure. -/
def saveEntry (st : St) (remoteOk : Bool) (dateKey content : String) :
    Except String Unit × St :=
  match getEmail st with
  | none => (Except.error "Not logged in", st)
  | some email =>
    let st1 : St := { st with localStore := mapSet st.localStore (entryPref ++ dateKey) content }
    if remoteOk then
      (Except.ok (),
        { st1 with remote := upsertRow st1.remote ⟨email, dateKey, content, countWords content⟩ })
    else (Except.ok (), st1)

/-- `Object.keys(localStorage).filter(key => key.startsWith(LOCAL_ENTRY_PREFIX))`. -/
def localKeysOf (st : St) : List String :=
  (st.localStore.map Prod.fst).filter (fun k => entryPref.data.isPrefixOf k.data)

/-- `key.replace(LOCAL_ENTRY_PREFIX, '')` for a key that starts with the
prefix: drop the prefix. -/
def dropPref (key : String) : String :=
  ⟨key.data.drop entryPref.data.length⟩

/-- One iteration of the success-path merge loop of `getAllEntries`
(src/dataStore.ts:97-107): a locally cached date key absent from the map
is added when its cached content has a positive word count. -/
def mergeLocalStep (st : St) (m : List (String × Nat)) (key : String) :
    List (String × Nat) :=
  let dateKey := dropPref key
  if (mapGet m dateKey).isSome then m
  else
    let wc := countWords ((mapGet st.localStore key).getD "")
    if 0 < wc then mapSet m dateKey wc else m

/-- One iteration of the failure-path loop of `getAllEntries`
(src/dataStore.ts:111-119): every cached key with positive word count is
added. -/
def localOnlyStep (st : St) (m : List (String × Nat)) (key : String) :
    List (String × Nat) :=
  let dateKey := dropPref key
  let wc := countWords ((mapGet st.localStore key).getD "")
  if 0 < wc then mapSet m dateKey wc else m

/-- The map built by `dataStore.getAllEntries` (src/dataStore.ts:79-123).
No email: empty map.  Remote reachable: every remote row for the user is
entered (unfiltered), then locally cached keys absent from the map are
merged in when their recomputed word count is positive.  Remote
unreachable: the map is rebuilt from the local cache alone. -/
def entriesIndex (st : St) (remoteOk : Bool) : List (String × Nat) :=
  match getEmail st with
  | none => []
  | some email =>
    if remoteOk then
      let fromRemote := (st.remote.filter (rowUserMatch email)).foldl
        (fun m r => mapSet m r.date_key r.word_count) []
      (localKeysOf st).foldl (mergeLocalStep st) fromRemote
    else
      (localKeysOf st).foldl (localOnlyStep st) []

/-- `dataStore.getAllEntries` as the caller sees it: it resolves normally
in every case (all remote errors are caught inside). -/
def getAllEntries (st : St) (remoteOk : Bool) : Except String (List (String × Nat)) :=
  Except.ok (entriesIndex st remoteOk)

end DataStore

/-! ## Association-list lemmas -/

theorem mapGet_mapSet_self {β : Type} (m : List (String × β)) (k : String) (v : β) :
    mapGet (mapSet m k v) k = some v := by
  induction m with
  | nil => simp [mapGet, mapSet]
  | cons p t ih =>
    rcases p with ⟨a, b⟩
    by_cases h : a = k
    · subst h; simp [mapGet, mapSet]
    · simp [mapGet, mapSet, h, ih]

theorem mapGet_mapSet_ne {β : Type} (m : List (String × β)) (k k' : String) (v : β)
    (h : k' ≠ k) : mapGet (mapSet m k v) k' = mapGet m k' := by
  have h' : ¬(k = k') := fun e => h e.symm
  induction m with
  | nil => simp [mapGet, mapSet, h']
  | cons p t ih =>
    rcases p with ⟨a, b⟩
    by_cases ha : a = k
    · subst ha; simp [mapGet, mapSet, h']
    · simp [mapGet, mapSet, ha, ih]

theorem entryKey_ne_userEmailKey (d : String) : entryPref ++ d ≠ userEmailKey := by
  intro h
  have h1 : (entryPref ++ d).data.head? = some 'l' := rfl
  rw [h] at h1
  exact absurd h1 (by decide)

theorem getEmail_set_entry (ls : List (String × String)) (rem rem' : List Row)
    (d c : String) :
    getEmail ⟨mapSet ls (entryPref ++ d) c, rem⟩ = getEmail ⟨ls, rem'⟩ := by
  unfold getEmail
  rw [show mapGet (mapSet ls (entryPref ++ d) c) userEmailKey = mapGet ls userEmailKey from
    mapGet_mapSet_ne ls (entryPref ++ d) userEmailKey c
      (fun h => entryKey_ne_userEmailKey d h.symm)]

/-! ## Upsert lemmas -/

theorem rowKeyMatch_self (e d c : String) (w : Nat) :
    DataStore.rowKeyMatch e d ⟨e, d, c, w⟩ = true := by
  simp [DataStore.rowKeyMatch]

theorem find?_map_upsert (rows : List Row) (e d c : String) (w : Nat)
    (hany : rows.any (DataStore.rowKeyMatch e d) = true) :
    (rows.map (fun x => if DataStore.rowKeyMatch e d x then (⟨e, d, c, w⟩ : Row) else x)).find?
      (DataStore.rowKeyMatch e d) = some ⟨e, d, c, w⟩ := by
  induction rows with
  | nil => simp at hany
  | cons x t ih =>
    by_cases hx : DataStore.rowKeyMatch e d x = true
    · simp [hx, List.find?_cons_of_pos, rowKeyMatch_self]
    · have ht : t.any (DataStore.rowKeyMatch e d) = true := by
        rcases List.any_eq_true.mp hany with ⟨y, hy, hpy⟩
        rcases List.mem_cons.mp hy with rfl | hy'
        · exact absurd hpy hx
        · exact List.any_eq_true.mpr ⟨y, hy', hpy⟩
      simpa [hx] using ih ht

theorem upsert_find_self (rows : List Row) (e d c : String) (w : Nat) :
    (DataStore.upsertRow rows ⟨e, d, c, w⟩).find? (DataStore.rowKeyMatch e d)
      = some ⟨e, d, c, w⟩ := by
  unfold DataStore.upsertRow
  by_cases hany : rows.any (DataStore.rowKeyMatch e d) = true
  · simpa [hany] using find?_map_upsert rows e d c w hany
  · have hnone : rows.find? (DataStore.rowKeyMatch e d) = none := by
      rw [List.find?_eq_none]
      intro x hx hpx
      exact hany (List.any_eq_true.mpr ⟨x, hx, hpx⟩)
    simp [hany, List.find?_append, hnone, rowKeyMatch_self]

/-! ## Claim C2: not-logged-in behaviour of the three operations -/

/-- C2 counterexample: with no stored user identity, `getEntry` resolves
with `null` and `getAllEntries` resolves with an empty index — neither
surfaces a NotAuthenticated error (only `saveEntry` does), refuting the
claim that all three operations fail fast. -/
theorem c2_counterexample :
    (DataStore.getEntry ⟨[], []⟩ true "2024-01-01").1 = Except.ok none ∧
    DataStore.getAllEntries ⟨[], []⟩ true = Except.ok [] ∧
    DataStore.saveEntry ⟨[], []⟩ true "2024-01-01" "hi"
      = (Except.error "Not logged in", ⟨[], []⟩) :=
  ⟨rfl, rfl, rfl⟩

/-- C2 (amended): when no user identity is stored, only `save_entry` fails
fast with the distinct "Not logged in" error; `get_entry` silently returns
`null` and `list_entries` silently returns an empty index, for every state
and reachability. -/
theorem c2_amended (st : St) (ok : Bool) (d C : String) (h : getEmail st = none) :
    DataStore.getEntry st ok d = (Except.ok none, st) ∧
    DataStore.getAllEntries st ok = Except.ok [] ∧
    DataStore.saveEntry st ok d C = (Except.error "Not logged in", st) := by
  unfold DataStore.getEntry DataStore.getAllEntries DataStore.entriesIndex DataStore.saveEntry
  rw [h]
  simp

/-- Witness for C2: the amended theorem applied at the concrete empty state. -/
theorem c2_witness : DataStore.getAllEntries ⟨[], []⟩ false = Except.ok [] :=
  (c2_amended ⟨[], []⟩ false "2024-01-01" "x" rfl).2.1

/-! ## Claim C4: round-trip through save then get -/

/-- C4: for a logged-in user and content with positive word count,
`save_entry` then `get_entry` returns exactly the saved content, both when
every remote operation succeeds (and the remote row then holds the
content) and when every remote operation fails (the value coming from the
Local Cache); neither operation surfaces an error in either execution. -/
theorem c4 (st : St) (email dateKey C : String)
    (hlog : getEmail st = some email) (hwc : 0 < countWords C) :
    (DataStore.saveEntry st true dateKey C).1 = Except.ok () ∧
    (DataStore.getEntry (DataStore.saveEntry st true dateKey C).2 true dateKey).1
      = Except.ok (some C) ∧
    ((DataStore.saveEntry st true dateKey C).2.remote.find?
        (DataStore.rowKeyMatch email dateKey)).map Row.content = some C ∧
    (DataStore.saveEntry st false dateKey C).1 = Except.ok () ∧
    (DataStore.getEntry (DataStore.saveEntry st false dateKey C).2 false dateKey).1
      = Except.ok (some C) := by
  have hsaveT : DataStore.saveEntry st true dateKey C =
      (Except.ok (), ⟨mapSet st.localStore (entryPref ++ dateKey) C,
        DataStore.upsertRow st.remote ⟨email, dateKey, C, countWords C⟩⟩) := by
    simp [DataStore.saveEntry, hlog]
  have hsaveF : DataStore.saveEntry st false dateKey C =
      (Except.ok (), ⟨mapSet st.localStore (entryPref ++ dateKey) C, st.remote⟩) := by
    simp [DataStore.saveEntry, hlog]
  have hmail : ∀ rem : List Row,
      getEmail ⟨mapSet st.localStore (entryPref ++ dateKey) C, rem⟩ = some email := by
    intro rem
    rw [getEmail_set_entry st.localStore rem st.remote dateKey C]
    exact hlog
  have hfind := upsert_find_self st.remote email dateKey C (countWords C)
  refine ⟨?_, ?_, ?_, ?_, ?_⟩
  · rw [hsaveT]
  · rw [hsaveT]
    simp [DataStore.getEntry, hmail, hfind]
  · rw [hsaveT]
    simp [hfind]
  · rw [hsaveF]
  · rw [hsaveF]
    simp [DataStore.getEntry, hmail, mapGet_mapSet_self]

/-- Witness for C4 at a concrete logged-in state and the content
`"hello world"`. -/
theorem c4_witness :
    (DataStore.getEntry
        (DataStore.saveEntry ⟨[(userEmailKey, "u@x")], []⟩ true "2024-01-01" "hello world").2
        true "2024-01-01").1 = Except.ok (some "hello world") :=
  (c4 ⟨[(userEmailKey, "u@x")], []⟩ "u@x" "2024-01-01" "hello world" rfl (by decide)).2.1

/-! ## Lookup characterizations for `entriesIndex` -/

/-- The `date_key` filter used when reading a remote enumeration result. -/
def rowDateMatch (k : String) (r : Row) : Bool := decide (r.date_key = k)

/-- The word count `list_entries` recomputes for date key `k` from the
Local Cache (`0` when nothing usable is cached). -/
def wcAt (st : St) (k : String) : Nat :=
  countWords ((mapGet st.localStore (entryPref ++ k)).getD "")

theorem foldl_mapSet_lookup (rows : List Row) (m0 : List (String × Nat)) (k : String) :
    mapGet (rows.foldl (fun m r => mapSet m r.date_key r.word_count) m0) k =
      match rows.reverse.find? (rowDateMatch k) with
      | some r => some r.word_count
      | none => mapGet m0 k := by
  induction rows generalizing m0 with
  | nil => simp
  | cons r t ih =>
    have hrev : (r :: t).reverse = t.reverse ++ [r] := by simp
    rw [List.foldl_cons, ih, hrev, List.find?_append]
    cases hf : t.reverse.find? (rowDateMatch k) with
    | some r' => simp
    | none =>
      by_cases hk : r.date_key = k
      · have : rowDateMatch k r = true := by simp [rowDateMatch, hk]
        simp only [Option.or, List.find?_cons_of_pos _ this, List.find?_nil]
        rw [← hk, mapGet_mapSet_self]
      · have : ¬ rowDateMatch k r = true := by simp [rowDateMatch, hk]
        simp only [Option.or, List.find?_cons_of_neg _ this, List.find?_nil]
        rw [mapGet_mapSet_ne _ _ _ _ (fun e => hk e.symm)]

theorem find?_eq_self_of_nodup_keys (rows : List Row) (r : Row)
    (hnd : (rows.map Row.date_key).Nodup) (hmem : r ∈ rows) :
    rows.find? (rowDateMatch r.date_key) = some r := by
  induction rows with
  | nil => simp at hmem
  | cons x t ih =>
    rcases List.mem_cons.mp hmem with rfl | hmt
    · exact List.find?_cons_of_pos t (by simp [rowDateMatch])
    · have hx : ¬ rowDateMatch r.date_key x = true := by
        simp only [rowDateMatch, decide_eq_true_eq]
        intro he
        have : x.date_key ∈ t.map Row.date_key := he ▸ List.mem_map_of_mem Row.date_key hmt
        exact (List.nodup_cons.mp (by simpa using hnd)).1 this
      rw [List.find?_cons_of_neg t hx]
      exact ih (List.nodup_cons.mp (by simpa using hnd)).2 hmt

theorem prefKey_eq (key : String)
    (h : entryPref.data.isPrefixOf key.data = true) :
    entryPref ++ DataStore.dropPref key = key := by
  rcases List.isPrefixOf_iff_prefix.mp h with ⟨t, ht⟩
  have hdata : (entryPref ++ DataStore.dropPref key).data
      = entryPref.data ++ (key.data.drop entryPref.data.length) := rfl
  have hd : key.data.drop entryPref.data.length = t := by
    rw [← ht, List.drop_left]
  cases key with
  | mk kd =>
    apply congrArg String.mk
    show entryPref.data ++ (String.data ⟨kd⟩).drop entryPref.data.length = kd
    rw [hd, ht]

theorem dropPref_append (d : String) : DataStore.dropPref (entryPref ++ d) = d := by
  unfold DataStore.dropPref
  have : (entryPref ++ d).data = entryPref.data ++ d.data := rfl
  rw [this, List.drop_left]

theorem prefKey_of_append (d : String) :
    entryPref.data.isPrefixOf (entryPref ++ d).data = true := by
  rw [List.isPrefixOf_iff_prefix]
  exact List.prefix_append entryPref.data d.data

theorem mapGet_isSome_iff_mem_keys {β : Type} (l : List (String × β)) (k : String) :
    (mapGet l k).isSome ↔ k ∈ l.map Prod.fst := by
  induction l with
  | nil => simp [mapGet]
  | cons p t ih =>
    by_cases h : p.1 = k
    · simp [mapGet, h]
    · have h' : ¬k = p.1 := fun e => h e.symm
      simp [mapGet, h, h', ih]

theorem mergeLocalStep_other (st : St) (m : List (String × Nat)) (j k : String)
    (h : DataStore.dropPref j ≠ k) :
    mapGet (DataStore.mergeLocalStep st m j) k = mapGet m k := by
  unfold DataStore.mergeLocalStep
  by_cases hs : (mapGet m (DataStore.dropPref j)).isSome
  · simp [hs]
  · by_cases hw : 0 < countWords ((mapGet st.localStore j).getD "")
    · simp [hs, hw, mapGet_mapSet_ne _ _ _ _ (fun e => h e.symm)]
    · simp [hs, hw]

theorem localOnlyStep_other (st : St) (m : List (String × Nat)) (j k : String)
    (h : DataStore.dropPref j ≠ k) :
    mapGet (DataStore.localOnlyStep st m j) k = mapGet m k := by
  unfold DataStore.localOnlyStep
  by_cases hw : 0 < countWords ((mapGet st.localStore j).getD "")
  · simp [hw, mapGet_mapSet_ne _ _ _ _ (fun e => h e.symm)]
  · simp [hw]

theorem foldl_merge_lookup (st : St) (keys : List String) (m : List (String × Nat))
    (k : String) (hnd : keys.Nodup)
    (hpf : ∀ j ∈ keys, entryPref.data.isPrefixOf j.data = true) :
    mapGet (keys.foldl (DataStore.mergeLocalStep st) m) k =
      match mapGet m k with
      | some v => some v
      | none =>
          if (entryPref ++ k) ∈ keys ∧ 0 < wcAt st k then some (wcAt st k) else none := by
  induction keys generalizing m with
  | nil =>
    cases hm : mapGet m k with
    | some v => simp [hm]
    | none => simp [hm]
  | cons j t ih =>
    have hndt : t.Nodup := (List.nodup_cons.mp hnd).2
    have hjt : j ∉ t := (List.nodup_cons.mp hnd).1
    have hpft : ∀ x ∈ t, entryPref.data.isPrefixOf x.data = true :=
      fun x hx => hpf x (List.mem_cons_of_mem _ hx)
    have hj : entryPref ++ DataStore.dropPref j = j := prefKey_eq j (hpf j (List.mem_cons_self _ _))
    rw [List.foldl_cons]
    by_cases hjk : DataStore.dropPref j = k
    · have hjek : j = entryPref ++ k := by rw [← hjk, hj]
      cases hm : mapGet m k with
      | some v =>
        have hstep : DataStore.mergeLocalStep st m j = m := by
          unfold DataStore.mergeLocalStep
          simp [hjk, hm]
        rw [hstep, ih m hndt hpft, hm]
      | none =>
        have hwc : countWords ((mapGet st.localStore j).getD "") = wcAt st k := by
          rw [wcAt, ← hjek]
        by_cases hw : 0 < wcAt st k
        · have hstep : DataStore.mergeLocalStep st m j = mapSet m k (wcAt st k) := by
            unfold DataStore.mergeLocalStep
            simp [hjk, hm, hwc, hw]
          rw [hstep, ih _ hndt hpft, mapGet_mapSet_self]
          simp [hm, hjek, hw]
        · have hstep : DataStore.mergeLocalStep st m j = m := by
            unfold DataStore.mergeLocalStep
            simp [hjk, hm, hwc, hw]
          rw [hstep, ih m hndt hpft, hm]
          have hkt : (entryPref ++ k) ∉ t := by rw [← hjek]; exact hjt
          simp [hkt, hw]
    · have hne : (entryPref ++ k) ≠ j := by
        intro e
        exact hjk (by rw [← e, dropPref_append])
      rw [ih (DataStore.mergeLocalStep st m j) hndt hpft,
        mergeLocalStep_other st m j k hjk]
      cases hm : mapGet m k with
      | some v => simp
      | none => simp [List.mem_cons, hne]

theorem foldl_localOnly_lookup (st : St) (keys : List String) (m : List (String × Nat))
    (k : String) (hnd : keys.Nodup)
    (hpf : ∀ j ∈ keys, entryPref.data.isPrefixOf j.data = true) :
    mapGet (keys.foldl (DataStore.localOnlyStep st) m) k =
      if (entryPref ++ k) ∈ keys ∧ 0 < wcAt st k then some (wcAt st k) else mapGet m k := by
  induction keys generalizing m with
  | nil => simp
  | cons j t ih =>
    have hndt : t.Nodup := (List.nodup_cons.mp hnd).2
    have hjt : j ∉ t := (List.nodup_cons.mp hnd).1
    have hpft : ∀ x ∈ t, entryPref.data.isPrefixOf x.data = true :=
      fun x hx => hpf x (List.mem_cons_of_mem _ hx)
    have hj : entryPref ++ DataStore.dropPref j = j := prefKey_eq j (hpf j (List.mem_cons_self _ _))
    rw [List.foldl_cons]
    by_cases hjk : DataStore.dropPref j = k
    · have hjek : j = entryPref ++ k := by rw [← hjk, hj]
      have hkt : (entryPref ++ k) ∉ t := by rw [← hjek]; exact hjt
      have hwc : countWords ((mapGet st.localStore j).getD "") = wcAt st k := by
        rw [wcAt, ← hjek]
      by_cases hw : 0 < wcAt st k
      · have hstep : DataStore.localOnlyStep st m j = mapSet m k (wcAt st k) := by
          unfold DataStore.localOnlyStep
          simp [hjk, hwc, hw]
        rw [hstep, ih _ hndt hpft]
        simp [hkt, hw, hjek, mapGet_mapSet_self]
      · have hstep : DataStore.localOnlyStep st m j = m := by
          unfold DataStore.localOnlyStep
          simp [hjk, hwc, hw]
        rw [hstep, ih m hndt hpft]
        simp [hkt, hw]
    · have hne : (entryPref ++ k) ≠ j := by
        intro e
        exact hjk (by rw [← e, dropPref_append])
      rw [ih (DataStore.localOnlyStep st m j) hndt hpft,
        localOnlyStep_other st m j k hjk]
      simp [List.mem_cons, hne]

theorem localKeys_nodup (st : St) (hndL : (st.localStore.map Prod.fst).Nodup) :
    (DataStore.localKeysOf st).Nodup := hndL.filter _

theorem localKeys_pref (st : St) :
    ∀ j ∈ DataStore.localKeysOf st, entryPref.data.isPrefixOf j.data = true :=
  fun j hj => (List.mem_filter.mp hj).2

theorem mem_localKeys_iff (st : St) (k : String) :
    (entryPref ++ k) ∈ DataStore.localKeysOf st ↔
      (mapGet st.localStore (entryPref ++ k)).isSome := by
  unfold DataStore.localKeysOf
  rw [List.mem_filter, mapGet_isSome_iff_mem_keys]
  simp [prefKey_of_append]

theorem wcAt_pos_mem (st : St) (k : String) (hw : 0 < wcAt st k) :
    (entryPref ++ k) ∈ DataStore.localKeysOf st := by
  rw [mem_localKeys_iff]
  cases hm : mapGet st.localStore (entryPref ++ k) with
  | some v => rfl
  | none =>
    rw [wcAt, hm] at hw
    exact absurd hw (by decide)

theorem entriesIndex_true_eq (st : St) (email : String)
    (hlog : getEmail st = some email) :
    DataStore.entriesIndex st true =
      (DataStore.localKeysOf st).foldl (DataStore.mergeLocalStep st)
        ((st.remote.filter (DataStore.rowUserMatch email)).foldl
          (fun m r => mapSet m r.date_key r.word_count) []) := by
  unfold DataStore.entriesIndex
  rw [hlog]
  rfl

theorem entriesIndex_false_eq (st : St) (email : String)
    (hlog : getEmail st = some email) :
    DataStore.entriesIndex st false =
      (DataStore.localKeysOf st).foldl (DataStore.localOnlyStep st) [] := by
  unfold DataStore.entriesIndex
  rw [hlog]
  simp

theorem entriesIndex_true_mem (st : St) (email : String)
    (hlog : getEmail st = some email)
    (hndR : ((st.remote.filter (DataStore.rowUserMatch email)).map Row.date_key).Nodup)
    (hndL : (st.localStore.map Prod.fst).Nodup)
    (r : Row) (hr : r ∈ st.remote.filter (DataStore.rowUserMatch email)) :
    mapGet (DataStore.entriesIndex st true) r.date_key = some r.word_count := by
  rw [entriesIndex_true_eq st email hlog,
    foldl_merge_lookup st _ _ _ (localKeys_nodup st hndL) (localKeys_pref st),
    foldl_mapSet_lookup]
  have hrev : (st.remote.filter (DataStore.rowUserMatch email)).reverse.find?
      (rowDateMatch r.date_key) = some r := by
    apply find?_eq_self_of_nodup_keys
    · rw [List.map_reverse]
      exact List.nodup_reverse.mpr hndR
    · exact List.mem_reverse.mpr hr
  rw [hrev]

theorem entriesIndex_true_absent (st : St) (email : String)
    (hlog : getEmail st = some email)
    (hndL : (st.localStore.map Prod.fst).Nodup)
    (k : String)
    (hk : k ∉ (st.remote.filter (DataStore.rowUserMatch email)).map Row.date_key) :
    mapGet (DataStore.entriesIndex st true) k =
      if 0 < wcAt st k then some (wcAt st k) else none := by
  rw [entriesIndex_true_eq st email hlog,
    foldl_merge_lookup st _ _ _ (localKeys_nodup st hndL) (localKeys_pref st),
    foldl_mapSet_lookup]
  have hnone : (st.remote.filter (DataStore.rowUserMatch email)).reverse.find?
      (rowDateMatch k) = none := by
    rw [List.find?_eq_none]
    intro x hx hpx
    have hxk : x.date_key = k := by simpa [rowDateMatch] using hpx
    exact hk (hxk ▸ List.mem_map_of_mem Row.date_key (List.mem_reverse.mp hx))
  rw [hnone]
  show (match mapGet [] k with
    | some v => some v
    | none => if (entryPref ++ k) ∈ DataStore.localKeysOf st ∧ 0 < wcAt st k
        then some (wcAt st k) else none) = _
  by_cases hw : 0 < wcAt st k
  · simp [mapGet, hw, wcAt_pos_mem st k hw]
  · simp [mapGet, hw]

theorem entriesIndex_false_lookup (st : St) (email : String)
    (hlog : getEmail st = some email)
    (hndL : (st.localStore.map Prod.fst).Nodup) (k : String) :
    mapGet (DataStore.entriesIndex st false) k =
      if 0 < wcAt st k then some (wcAt st k) else none := by
  rw [entriesIndex_false_eq st email hlog,
    foldl_localOnly_lookup st _ _ _ (localKeys_nodup st hndL) (localKeys_pref st)]
  by_cases hw : 0 < wcAt st k
  · simp [mapGet, hw, wcAt_pos_mem st k hw]
  · simp [mapGet, hw]

/-! ## Claim C3: the reachability tie-break of `list_entries` -/

/-- C3: with a logged-in user, a remote table whose rows for that user
have distinct date keys, and a well-formed local cache: (1) when the
remote enumeration succeeds, every remote date key gets the remote
word_count (Remote Store wins, regardless of what is cached locally);
(2) a key absent from the remote result is merged from the Local Cache
exactly when its recomputed word count is positive; (3) when the remote
enumeration fails, the index is exactly the positive-count Local Cache
content. -/
theorem c3 (st : St) (email : String)
    (hlog : getEmail st = some email)
    (hndR : ((st.remote.filter (DataStore.rowUserMatch email)).map Row.date_key).Nodup)
    (hndL : (st.localStore.map Prod.fst).Nodup) :
    (∀ r ∈ st.remote.filter (DataStore.rowUserMatch email),
        mapGet (DataStore.entriesIndex st true) r.date_key = some r.word_count) ∧
    (∀ k : String, k ∉ (st.remote.filter (DataStore.rowUserMatch email)).map Row.date_key →
        mapGet (DataStore.entriesIndex st true) k =
          if 0 < wcAt st k then some (wcAt st k) else none) ∧
    (∀ k : String, mapGet (DataStore.entriesIndex st false) k =
        if 0 < wcAt st k then some (wcAt st k) else none) :=
  ⟨fun r hr => entriesIndex_true_mem st email hlog hndR hndL r hr,
   fun k hk => entriesIndex_true_absent st email hlog hndL k hk,
   fun k => entriesIndex_false_lookup st email hlog hndL k⟩

/-- Witness for C3 at a concrete state: one synced remote row and one
offline-only cached entry; the index takes the remote count for the
first and merges the computed count for the second. -/
theorem c3_witness :
    mapGet (DataStore.entriesIndex
      ⟨[(userEmailKey, "u@x"), ("local-journal-entry-2024-01-03", "a b")],
        [⟨"u@x", "2024-01-02", "x y z", 3⟩]⟩ true) "2024-01-02" = some 3 ∧
    mapGet (DataStore.entriesIndex
      ⟨[(userEmailKey, "u@x"), ("local-journal-entry-2024-01-03", "a b")],
        [⟨"u@x", "2024-01-02", "x y z", 3⟩]⟩ true) "2024-01-03" = some 2 := by
  have h := c3 ⟨[(userEmailKey, "u@x"), ("local-journal-entry-2024-01-03", "a b")],
    [⟨"u@x", "2024-01-02", "x y z", 3⟩]⟩ "u@x" rfl (by decide) (by decide)
  constructor
  · exact h.1 ⟨"u@x", "2024-01-02", "x y z", 3⟩ (by decide)
  · have h2 := h.2.1 "2024-01-03" (by decide)
    rw [h2]
    decide

/-! ## Claim C1: zero-word-count entries and `list_entries` -/

theorem mem_keys_mapSet {β : Type} (l : List (String × β)) (k v x) :
    x ∈ (mapSet l k v).map Prod.fst ↔ x = k ∨ x ∈ l.map Prod.fst := by
  induction l with
  | nil => simp [mapSet]
  | cons p t ih =>
    rcases p with ⟨a, b⟩
    by_cases h : a = k
    · subst h
      simp [mapSet]
    · simp only [mapSet, if_neg h, List.map_cons, List.mem_cons, ih]
      tauto

theorem mapSet_keys_nodup {β : Type} (l : List (String × β)) (k : String) (v : β)
    (h : (l.map Prod.fst).Nodup) : ((mapSet l k v).map Prod.fst).Nodup := by
  induction l with
  | nil => simp [mapSet]
  | cons p t ih =>
    rcases p with ⟨a, b⟩
    have hp : a ∉ t.map Prod.fst := (List.nodup_cons.mp (by simpa using h)).1
    have ht : (t.map Prod.fst).Nodup := (List.nodup_cons.mp (by simpa using h)).2
    by_cases hk : a = k
    · subst hk
      simp only [mapSet, if_pos rfl, List.map_cons]
      exact List.nodup_cons.mpr ⟨hp, ht⟩
    · simp only [mapSet, if_neg hk, List.map_cons]
      refine List.nodup_cons.mpr ⟨?_, ih ht⟩
      rw [mem_keys_mapSet]
      rintro (rfl | hmem)
      · exact hk rfl
      · exact hp hmem

/-- C1 counterexample: saving whitespace-free empty content while the
Remote Store is reachable upserts a `word_count = 0` row instead of
deleting, and a subsequent successful `list_entries` enumeration includes
that date key (with count 0) — so the key is not absent from the index. -/
theorem c1_counterexample :
    countWords "" = 0 ∧
    mapGet (DataStore.entriesIndex
        (DataStore.saveEntry ⟨[(userEmailKey, "u@x")], []⟩ true "2024-01-01" "").2 true)
      "2024-01-01" = some 0 :=
  ⟨rfl, rfl⟩

/-- C1 (amended): after saving content with word count 0, the date key is
absent from `list_entries` whenever the remote enumeration fails (for
either save outcome), and also when the upsert failed and the remote table
holds no row for that key; but when the upsert and the enumeration both
succeed, the key appears with word_count 0 — empty content is upserted,
not deleted. -/
theorem c1_amended (st : St) (email dateKey C : String)
    (hlog : getEmail st = some email) (hwc : countWords C = 0)
    (hndL : (st.localStore.map Prod.fst).Nodup)
    (hnoRow : ∀ r ∈ st.remote, ¬(r.user_email = email ∧ r.date_key = dateKey))
    (hndR : ((st.remote.filter (DataStore.rowUserMatch email)).map Row.date_key).Nodup) :
    (∀ ok : Bool,
      mapGet (DataStore.entriesIndex (DataStore.saveEntry st ok dateKey C).2 false)
        dateKey = none) ∧
    mapGet (DataStore.entriesIndex (DataStore.saveEntry st false dateKey C).2 true)
      dateKey = none ∧
    mapGet (DataStore.entriesIndex (DataStore.saveEntry st true dateKey C).2 true)
      dateKey = some 0 := by
  have hsaveT : DataStore.saveEntry st true dateKey C =
      (Except.ok (), ⟨mapSet st.localStore (entryPref ++ dateKey) C,
        DataStore.upsertRow st.remote ⟨email, dateKey, C, countWords C⟩⟩) := by
    simp [DataStore.saveEntry, hlog]
  have hsaveF : DataStore.saveEntry st false dateKey C =
      (Except.ok (), ⟨mapSet st.localStore (entryPref ++ dateKey) C, st.remote⟩) := by
    simp [DataStore.saveEntry, hlog]
  have hmail : ∀ rem : List Row,
      getEmail ⟨mapSet st.localStore (entryPref ++ dateKey) C, rem⟩ = some email := by
    intro rem
    rw [getEmail_set_entry st.localStore rem st.remote dateKey C]
    exact hlog
  have hndL' : ((mapSet st.localStore (entryPref ++ dateKey) C).map Prod.fst).Nodup :=
    mapSet_keys_nodup st.localStore (entryPref ++ dateKey) C hndL
  have hwcAt : ∀ rem : List Row,
      wcAt ⟨mapSet st.localStore (entryPref ++ dateKey) C, rem⟩ dateKey = 0 := by
    intro rem
    show countWords ((mapGet (mapSet st.localStore (entryPref ++ dateKey) C)
      (entryPref ++ dateKey)).getD "") = 0
    rw [mapGet_mapSet_self]
    simpa using hwc
  have hkabs : dateKey ∉ (st.remote.filter (DataStore.rowUserMatch email)).map Row.date_key := by
    intro hmem
    rcases List.mem_map.mp hmem with ⟨x, hx, hxd⟩
    rcases List.mem_filter.mp hx with ⟨hxr, hxu⟩
    exact hnoRow x hxr ⟨by simpa [DataStore.rowUserMatch] using hxu, hxd⟩
  refine ⟨?_, ?_, ?_⟩
  · intro ok
    cases ok
    · rw [hsaveF]
      rw [entriesIndex_false_lookup _ email (hmail st.remote) hndL' dateKey]
      simp [hwcAt st.remote]
    · rw [hsaveT]
      rw [entriesIndex_false_lookup _ email (hmail _) hndL' dateKey]
      simp [hwcAt]
  · rw [hsaveF]
    rw [entriesIndex_true_absent _ email (hmail st.remote) hndL' dateKey hkabs]
    simp [hwcAt st.remote]
  · rw [hsaveT]
    have hanyF : st.remote.any (DataStore.rowKeyMatch email dateKey) = false := by
      rw [List.any_eq_false]
      intro r hr
      simpa [DataStore.rowKeyMatch] using hnoRow r hr
    have hupe : DataStore.upsertRow st.remote ⟨email, dateKey, C, countWords C⟩ =
        st.remote ++ [(⟨email, dateKey, C, countWords C⟩ : Row)] := by
      unfold DataStore.upsertRow
      simp [hanyF]
    have hfil : (st.remote ++ [(⟨email, dateKey, C, countWords C⟩ : Row)]).filter
        (DataStore.rowUserMatch email) =
        st.remote.filter (DataStore.rowUserMatch email)
          ++ [(⟨email, dateKey, C, countWords C⟩ : Row)] := by
      rw [List.filter_append]
      simp [DataStore.rowUserMatch]
    have hndR' : (((st.remote ++ [(⟨email, dateKey, C, countWords C⟩ : Row)]).filter
        (DataStore.rowUserMatch email)).map Row.date_key).Nodup := by
      rw [hfil, List.map_append]
      simp only [List.map_cons, List.map_nil]
      rw [List.nodup_append]
      refine ⟨hndR, List.nodup_singleton _, ?_⟩
      intro a ha hb
      have : a = dateKey := by simpa using hb
      exact hkabs (this ▸ ha)
    have hmem' : (⟨email, dateKey, C, countWords C⟩ : Row) ∈
        (st.remote ++ [(⟨email, dateKey, C, countWords C⟩ : Row)]).filter
          (DataStore.rowUserMatch email) := by
      rw [hfil]
      exact List.mem_append_right _ (List.mem_singleton.mpr rfl)
    have h := entriesIndex_true_mem
      ⟨mapSet st.localStore (entryPref ++ dateKey) C,
        st.remote ++ [(⟨email, dateKey, C, countWords C⟩ : Row)]⟩
      email (hmail _) hndR' hndL' ⟨email, dateKey, C, countWords C⟩ hmem'
    rw [hupe]
    rw [h]
    simp [hwc]

/-- Witness for C1's amended theorem at a concrete state: saving a
single-space entry then listing shows the key present (count 0) on the
all-success path and absent on the remote-failure path. -/
theorem c1_witness :
    mapGet (DataStore.entriesIndex
        (DataStore.saveEntry ⟨[(userEmailKey, "u@x")], []⟩ true "2024-01-02" " ").2 true)
      "2024-01-02" = some 0 ∧
    mapGet (DataStore.entriesIndex
        (DataStore.saveEntry ⟨[(userEmailKey, "u@x")], []⟩ true "2024-01-02" " ").2 false)
      "2024-01-02" = none := by
  have h := c1_amended ⟨[(userEmailKey, "u@x")], []⟩ "u@x" "2024-01-02" " " rfl
    (by decide) (by decide) (by simp) (by decide)
  exact ⟨h.2.2, h.1 true⟩

/-! ## Streak Calculator (`calculateStreaks`, src/index.tsx:276-317)

Date keys are embedded as integers at day granularity (the canonical
`YYYY-MM-DD` keys are in bijection with day numbers; `diffDays` computed
from millisecond differences with `Math.round` is exactly integer day
subtraction at this granularity, and `today` is an explicit parameter). -/

/-- The backward walk of the current-streak `while` loop: count while the
day is present, decrement.  The loop is embedded with explicit fuel;
`wbAux_le_length` below shows fuel `L.length + 1` is never exhausted, so
this equals the unbounded loop. -/
def wbAux (L : List Int) : Nat → Int → Nat
  | 0, _ => 0
  | f + 1, d => if d ∈ L then wbAux L f (d - 1) + 1 else 0

/-- `currentStreak`: walk backward from today while each consecutive day
is in the entry set. -/
def currentStreak (L : List Int) (today : Int) : Nat :=
  wbAux L (L.length + 1) today

/-- The longest-streak scan over the sorted dates: `cur` is the running
streak through `prev`, `best` the maximum seen so far; a gap other than
exactly one day resets the run to 1. -/
def longestAux : Int → Nat → Nat → List Int → Nat
  | _, best, _, [] => best
  | prev, best, cur, x :: xs =>
      longestAux x (max best (if x - prev = 1 then cur + 1 else 1))
        (if x - prev = 1 then cur + 1 else 1) xs

/-- `longestStreak` part of `calculateStreaks`: sort ascending, scan
adjacent pairs (`longestStreak` starts at 1 for a nonempty list).
JavaScript's `sort` on distinct day values produces the unique ascending
arrangement, embedded here with insertion sort. -/
def longestStreak (L : List Int) : Nat :=
  match List.insertionSort (· ≤ ·) L with
  | [] => 0
  | d :: rest => longestAux d 1 1 rest

/-- `calculateStreaks(entryKeys)` with the `new Date()` "today" made an
explicit parameter: `(currentStreak, longestStreak)`, and `(0, 0)` for an
empty key set. -/
def calculateStreaks (entryKeys : List Int) (today : Int) : Nat × Nat :=
  if entryKeys = [] then (0, 0)
  else (currentStreak entryKeys today, longestStreak entryKeys)

theorem wbAux_mem (L : List Int) :
    ∀ (f : Nat) (d : Int) (j : Nat), j < wbAux L f d → d - (j : Int) ∈ L := by
  intro f
  induction f with
  | zero => intro d j hj; simp [wbAux] at hj
  | succ f ih =>
    intro d j hj
    by_cases hd : d ∈ L
    · rw [show wbAux L (f + 1) d = wbAux L f (d - 1) + 1 from by simp [wbAux, hd]] at hj
      cases j with
      | zero => simpa using hd
      | succ j' =>
        have hj' : j' < wbAux L f (d - 1) := by omega
        have hmem := ih (d - 1) j' hj'
        have heq : d - ((j' + 1 : Nat) : Int) = (d - 1) - (j' : Int) := by push_cast; ring
        rw [heq]
        exact hmem
    · simp [wbAux, hd] at hj

theorem wbAux_not_mem (L : List Int) :
    ∀ (f : Nat) (d : Int), wbAux L f d < f → d - (wbAux L f d : Int) ∉ L := by
  intro f
  induction f with
  | zero => intro d h; exact absurd h (Nat.not_lt_zero _)
  | succ f ih =>
    intro d h
    by_cases hd : d ∈ L
    · rw [show wbAux L (f + 1) d = wbAux L f (d - 1) + 1 from by simp [wbAux, hd]] at h ⊢
      have hlt : wbAux L f (d - 1) < f := by omega
      have hnot := ih (d - 1) hlt
      have heq : d - ((wbAux L f (d - 1) + 1 : Nat) : Int)
          = (d - 1) - (wbAux L f (d - 1) : Int) := by push_cast; ring
      rw [heq]
      exact hnot
    · rw [show wbAux L (f + 1) d = 0 from by simp [wbAux, hd]]
      simpa using hd

theorem wbAux_le_length (L : List Int) (f : Nat) (d : Int) :
    wbAux L f d ≤ L.length := by
  have hinj : Function.Injective (fun j : Nat => d - (j : Int)) := by
    intro a b hab
    simp only at hab
    omega
  have hsub : (Finset.range (wbAux L f d)).image (fun j : Nat => d - (j : Int))
      ⊆ L.toFinset := by
    intro x hx
    rcases Finset.mem_image.mp hx with ⟨j, hj, rfl⟩
    exact List.mem_toFinset.mpr (wbAux_mem L f d j (Finset.mem_range.mp hj))
  have hcard := Finset.card_image_of_injective (Finset.range (wbAux L f d)) hinj
  have hle := Finset.card_le_card hsub
  rw [hcard, Finset.card_range] at hle
  exact le_trans hle (List.toFinset_card_le L)

/-- The current streak is characterized as: every day in the window is
present and the day just past the window is absent. -/
theorem currentStreak_spec (L : List Int) (today : Int) :
    (∀ j : Nat, j < currentStreak L today → today - (j : Int) ∈ L) ∧
    today - (currentStreak L today : Int) ∉ L :=
  ⟨fun j hj => wbAux_mem L _ today j hj,
   wbAux_not_mem L _ today
     (lt_of_le_of_lt (wbAux_le_length L _ today) (Nat.lt_succ_self _))⟩

theorem wb_unique (L : List Int) (d : Int) (k1 k2 : Nat)
    (h1a : ∀ j : Nat, j < k1 → d - (j : Int) ∈ L) (h1b : d - (k1 : Int) ∉ L)
    (h2a : ∀ j : Nat, j < k2 → d - (j : Int) ∈ L) (h2b : d - (k2 : Int) ∉ L) :
    k1 = k2 := by
  rcases lt_trichotomy k1 k2 with h | h | h
  · exact absurd (h2a k1 h) h1b
  · exact h
  · exact absurd (h1a k2 h) h2b

theorem wb_succ (L : List Int) (p : Int) (hp : p + 1 ∈ L) :
    currentStreak L (p + 1) = currentStreak L p + 1 := by
  have hsp := currentStreak_spec L p
  have hs1 := currentStreak_spec L (p + 1)
  refine wb_unique L (p + 1) _ _ hs1.1 hs1.2 ?_ ?_
  · intro j hj
    cases j with
    | zero => simpa using hp
    | succ j' =>
      have heq : (p + 1) - ((j' + 1 : Nat) : Int) = p - (j' : Int) := by push_cast; ring
      rw [heq]
      exact hsp.1 j' (by omega)
  · have heq : (p + 1) - ((currentStreak L p + 1 : Nat) : Int)
        = p - (currentStreak L p : Int) := by push_cast; ring
    rw [heq]
    exact hsp.2

theorem wb_one (L : List Int) (x : Int) (hx : x ∈ L) (hx1 : x - 1 ∉ L) :
    currentStreak L x = 1 := by
  have hs := currentStreak_spec L x
  refine wb_unique L x _ 1 hs.1 hs.2 ?_ ?_
  · intro j hj
    have : j = 0 := by omega
    subst this
    simpa using hx
  · simpa using hx1

/-- Scan invariant for `longestAux` relative to the full entry set `L`:
if `cur` is the walk-back streak ending at `prev` and `best` dominates
(and attains) the walk-back streaks of all processed elements, then the
scan result dominates and attains the walk-back streaks of all of `L`. -/
theorem longestAux_spec (L : List Int) :
    ∀ (xs : List Int) (prev : Int) (best cur : Nat),
    (prev :: xs).Pairwise (· < ·) →
    (∀ x ∈ prev :: xs, x ∈ L) →
    (∀ e ∈ L, e ≤ prev ∨ e ∈ xs) →
    cur = currentStreak L prev →
    (∀ e ∈ L, e ≤ prev → currentStreak L e ≤ best) →
    (∃ e ∈ L, best = currentStreak L e) →
    (∀ e ∈ L, currentStreak L e ≤ longestAux prev best cur xs) ∧
    (∃ e ∈ L, longestAux prev best cur xs = currentStreak L e) := by
  intro xs
  induction xs with
  | nil =>
    intro prev best cur hpair hmem hcompl hcur hb1 hb2
    refine ⟨?_, hb2⟩
    intro e he
    rcases hcompl e he with h | h
    · exact hb1 e he h
    · simp at h
  | cons x rest ih =>
    intro prev best cur hpair hmem hcompl hcur hb1 hb2
    have hpx : prev < x := (List.pairwise_cons.mp hpair).1 x (List.mem_cons_self x rest)
    have hpair' : (x :: rest).Pairwise (· < ·) := (List.pairwise_cons.mp hpair).2
    have hxL : x ∈ L := hmem x (List.mem_cons_of_mem _ (List.mem_cons_self x rest))
    have hcsx : (if x - prev = 1 then cur + 1 else 1) = currentStreak L x := by
      by_cases hgap : x - prev = 1
      · have hx' : x = prev + 1 := by omega
        rw [if_pos hgap, hcur, ← wb_succ L prev (hx' ▸ hxL), ← hx']
      · have hx1 : x - 1 ∉ L := by
          intro hmem1
          rcases hcompl (x - 1) hmem1 with h | h
          · omega
          · rcases List.mem_cons.mp h with h' | hr
            · omega
            · have := (List.pairwise_cons.mp hpair').1 (x - 1) hr
              omega
        rw [if_neg hgap, wb_one L x hxL hx1]
    have hstep : longestAux prev best cur (x :: rest) =
        longestAux x (max best (if x - prev = 1 then cur + 1 else 1))
          (if x - prev = 1 then cur + 1 else 1) rest := rfl
    rw [hstep]
    refine ih x _ _ hpair'
      (fun y hy => hmem y (List.mem_cons_of_mem _ hy)) ?_ hcsx ?_ ?_
    · intro e he
      rcases hcompl e he with h | h
      · exact Or.inl (le_trans h (le_of_lt hpx))
      · rcases List.mem_cons.mp h with rfl | hr
        · exact Or.inl le_rfl
        · exact Or.inr hr
    · intro e he hex
      rcases hcompl e he with h | h
      · exact le_trans (hb1 e he h) (le_max_left _ _)
      · rcases List.mem_cons.mp h with rfl | hr
        · rw [← hcsx]
          exact le_max_right _ _
        · have := (List.pairwise_cons.mp hpair').1 e hr
          omega
    · rcases max_choice best (if x - prev = 1 then cur + 1 else 1) with h | h
      · rw [h]
        exact hb2
      · exact ⟨x, hxL, by rw [h, hcsx]⟩

/-- For a nonempty duplicate-free entry set, the computed longest streak
dominates and attains the walk-back streak of every entry day. -/
theorem longestStreak_spec (L : List Int) (hnd : L.Nodup) (hne : L ≠ []) :
    (∀ e ∈ L, currentStreak L e ≤ longestStreak L) ∧
    (∃ e ∈ L, longestStreak L = currentStreak L e) := by
  have hperm : List.Perm (List.insertionSort (· ≤ ·) L) L := List.perm_insertionSort _ L
  have hsorted : (List.insertionSort (· ≤ ·) L).Sorted (· ≤ ·) :=
    List.sorted_insertionSort _ L
  have hnds : (List.insertionSort (· ≤ ·) L).Nodup := hperm.nodup_iff.mpr hnd
  have hlt : (List.insertionSort (· ≤ ·) L).Sorted (· < ·) := hsorted.lt_of_le hnds
  cases hs : List.insertionSort (· ≤ ·) L with
  | nil =>
    exfalso
    have h0 := hperm
    rw [hs] at h0
    exact hne h0.symm.eq_nil
  | cons d rest =>
    have hmemiff : ∀ x : Int, x ∈ d :: rest ↔ x ∈ L := by
      intro x
      rw [← hs]
      exact hperm.mem_iff
    have hpair : (d :: rest).Pairwise (· < ·) := by
      rw [← hs]
      exact hlt
    have hdL : d ∈ L := (hmemiff d).mp (List.mem_cons_self d rest)
    have hd1 : d - 1 ∉ L := by
      intro hm
      rcases List.mem_cons.mp ((hmemiff (d - 1)).mpr hm) with h' | hr
      · omega
      · have := (List.pairwise_cons.mp hpair).1 (d - 1) hr
        omega
    have hw1 : currentStreak L d = 1 := wb_one L d hdL hd1
    have hmain := longestAux_spec L rest d 1 1 hpair
      (fun x hx => (hmemiff x).mp hx) ?_ hw1.symm ?_ ⟨d, hdL, hw1.symm⟩
    · have hls : longestStreak L = longestAux d 1 1 rest := by
        unfold longestStreak
        rw [hs]
      rw [hls]
      exact hmain
    · intro e he
      rcases List.mem_cons.mp ((hmemiff e).mpr he) with rfl | hr
      · exact Or.inl le_rfl
      · exact Or.inr hr
    · intro e he hed
      rcases List.mem_cons.mp ((hmemiff e).mpr he) with rfl | hr
      · rw [hw1]
      · have := (List.pairwise_cons.mp hpair).1 e hr
        omega

/-- Any run of consecutive days contained in the entry set is bounded by
the computed longest streak. -/
theorem run_le_longest (L : List Int) (hnd : L.Nodup) (hne : L ≠ [])
    (d : Int) (n : Nat) (hrun : ∀ j : Nat, j < n → d - (j : Int) ∈ L) :
    n ≤ longestStreak L := by
  cases n with
  | zero => exact Nat.zero_le _
  | succ m =>
    have hdL : d ∈ L := by simpa using hrun 0 (Nat.succ_pos m)
    have hle : m + 1 ≤ currentStreak L d := by
      by_contra hlt
      exact (currentStreak_spec L d).2 (hrun _ (by omega))
    exact le_trans hle ((longestStreak_spec L hnd hne).1 d hdL)

/-- The concrete streak scenario of the spec, for an arbitrary base day:
entries on three consecutive days ending today give streaks (3, 3), and
adding the non-adjacent day `D - 6` leaves both at 3. -/
theorem calculateStreaks_triple (D : Int) :
    calculateStreaks [D, D - 1, D - 2] D = (3, 3) ∧
    calculateStreaks [D, D - 1, D - 2, D - 6] D = (3, 3) := by
  have hnd3 : ([D, D - 1, D - 2] : List Int).Nodup := by
    simp [List.nodup_cons, List.mem_cons]
    omega
  have hnd4 : ([D, D - 1, D - 2, D - 6] : List Int).Nodup := by
    simp [List.nodup_cons, List.mem_cons]
    omega
  have hrun3 : ∀ j : Nat, j < 3 → D - (j : Int) ∈ ([D, D - 1, D - 2] : List Int) := by
    intro j hj
    interval_cases j <;> simp
  have hrun4 : ∀ j : Nat, j < 3 → D - (j : Int) ∈ ([D, D - 1, D - 2, D - 6] : List Int) := by
    intro j hj
    interval_cases j <;> simp
  have hcs3 : currentStreak [D, D - 1, D - 2] D = 3 := by
    have hs := currentStreak_spec [D, D - 1, D - 2] D
    refine wb_unique _ D _ 3 hs.1 hs.2 hrun3 ?_
    simp [List.mem_cons]
  have hcs4 : currentStreak [D, D - 1, D - 2, D - 6] D = 3 := by
    have hs := currentStreak_spec [D, D - 1, D - 2, D - 6] D
    refine wb_unique _ D _ 3 hs.1 hs.2 hrun4 ?_
    simp [List.mem_cons]
  have hlow3 : 3 ≤ longestStreak [D, D - 1, D - 2] :=
    run_le_longest _ hnd3 (by simp) D 3 hrun3
  have hlow4 : 3 ≤ longestStreak [D, D - 1, D - 2, D - 6] :=
    run_le_longest _ hnd4 (by simp) D 3 hrun4
  have hup3 : longestStreak [D, D - 1, D - 2] ≤ 3 := by
    rcases (longestStreak_spec _ hnd3 (by simp)).2 with ⟨e, he, heq⟩
    rw [heq]
    by_contra h
    push_neg at h
    have h0 := (currentStreak_spec [D, D - 1, D - 2] e).1 0 (by omega)
    have h1 := (currentStreak_spec [D, D - 1, D - 2] e).1 1 (by omega)
    have h2 := (currentStreak_spec [D, D - 1, D - 2] e).1 2 (by omega)
    have h3 := (currentStreak_spec [D, D - 1, D - 2] e).1 3 (by omega)
    simp [List.mem_cons] at h0 h1 h2 h3
    omega
  have hup4 : longestStreak [D, D - 1, D - 2, D - 6] ≤ 3 := by
    rcases (longestStreak_spec _ hnd4 (by simp)).2 with ⟨e, he, heq⟩
    rw [heq]
    by_contra h
    push_neg at h
    have h0 := (currentStreak_spec [D, D - 1, D - 2, D - 6] e).1 0 (by omega)
    have h1 := (currentStreak_spec [D, D - 1, D - 2, D - 6] e).1 1 (by omega)
    have h2 := (currentStreak_spec [D, D - 1, D - 2, D - 6] e).1 2 (by omega)
    have h3 := (currentStreak_spec [D, D - 1, D - 2, D - 6] e).1 3 (by omega)
    simp [List.mem_cons] at h0 h1 h2 h3
    omega
  constructor
  · have hne : ([D, D - 1, D - 2] : List Int) ≠ [] := by simp
    rw [show calculateStreaks [D, D - 1, D - 2] D
        = (currentStreak [D, D - 1, D - 2] D, longestStreak [D, D - 1, D - 2]) from by
      simp [calculateStreaks]]
    rw [hcs3, le_antisymm hup3 hlow3]
  · rw [show calculateStreaks [D, D - 1, D - 2, D - 6] D
        = (currentStreak [D, D - 1, D - 2, D - 6] D,
            longestStreak [D, D - 1, D - 2, D - 6]) from by
      simp [calculateStreaks]]
    rw [hcs4, le_antisymm hup4 hlow4]

/-! ## Claim C5: the streak calculator -/

/-- C5: for a duplicate-free set of day keys and a fixed today,
`calculateStreaks` returns as current streak exactly the length of the
consecutive run ending at today (every day in the window present, the
next one absent — 0 when today is absent), and as longest streak the
maximum length of any run of consecutive days in the set (it bounds every
run and is itself attained by a run); in particular three consecutive
days ending at today give (3, 3), and adding the non-adjacent day `D - 6`
leaves the longest streak at 3. -/
theorem c5 (s : List Int) (today : Int) (hnd : s.Nodup) :
    (∀ j : Nat, j < (calculateStreaks s today).1 → today - (j : Int) ∈ s) ∧
    today - ((calculateStreaks s today).1 : Int) ∉ s ∧
    (∀ (d : Int) (n : Nat), (∀ j : Nat, j < n → d - (j : Int) ∈ s) →
      n ≤ (calculateStreaks s today).2) ∧
    (s ≠ [] → ∃ d ∈ s, ∀ j : Nat, j < (calculateStreaks s today).2 → d - (j : Int) ∈ s) ∧
    (s = [] → calculateStreaks s today = (0, 0)) ∧
    (∀ D : Int, calculateStreaks [D, D - 1, D - 2] D = (3, 3) ∧
      calculateStreaks [D, D - 1, D - 2, D - 6] D = (3, 3)) := by
  by_cases hse : s = []
  · subst hse
    refine ⟨?_, ?_, ?_, ?_, ?_, calculateStreaks_triple⟩
    · intro j hj
      simp [calculateStreaks] at hj
    · simp [calculateStreaks]
    · intro d n hrun
      rcases Nat.eq_zero_or_pos n with rfl | hp
      · simp
      · exact absurd (hrun 0 hp) (List.not_mem_nil _)
    · intro h
      exact absurd rfl h
    · intro _
      simp [calculateStreaks]
  · have hpair : calculateStreaks s today = (currentStreak s today, longestStreak s) := by
      simp [calculateStreaks, hse]
    refine ⟨?_, ?_, ?_, ?_, fun h => absurd h hse, calculateStreaks_triple⟩
    · rw [hpair]
      exact fun j hj => (currentStreak_spec s today).1 j hj
    · rw [hpair]
      exact (currentStreak_spec s today).2
    · rw [hpair]
      exact fun d n hrun => run_le_longest s hnd hse d n hrun
    · rw [hpair]
      intro _
      rcases (longestStreak_spec s hnd hse).2 with ⟨e, he, heq⟩
      exact ⟨e, he, fun j hj => (currentStreak_spec s e).1 j (heq ▸ hj)⟩

/-- Witness for C5 at the concrete set {0, -1, -2} with today = 0. -/
theorem c5_witness : calculateStreaks [(0 : Int), -1, -2] 0 = (3, 3) := by
  have h := ((c5 [(0 : Int), -1, -2] 0 (by decide)).2.2.2.2.2 0).1
  norm_num at h
  exact h

/-! ## Claim C10: current streak never exceeds longest streak -/

/-- C10: for a duplicate-free set of day keys and any today, the current
streak is at most the longest streak, and the empty set yields (0, 0). -/
theorem c10 (s : List Int) (today : Int) (hnd : s.Nodup) :
    (calculateStreaks s today).1 ≤ (calculateStreaks s today).2 ∧
    (s = [] → calculateStreaks s today = (0, 0)) := by
  by_cases hse : s = []
  · subst hse
    simp [calculateStreaks]
  · have hpair : calculateStreaks s today = (currentStreak s today, longestStreak s) := by
      simp [calculateStreaks, hse]
    rw [hpair]
    refine ⟨?_, fun h => absurd h hse⟩
    rcases Nat.eq_zero_or_pos (currentStreak s today) with hz | hp
    · simp [hz]
    · have hin : today ∈ s := by
        have h0 := (currentStreak_spec s today).1 0 hp
        simpa using h0
      exact (longestStreak_spec s hnd hse).1 today hin

/-- Witness for C10 at the concrete set {0, -1, -2} with today = 0. -/
theorem c10_witness :
    (calculateStreaks [(0 : Int), -1, -2] 0).1 ≤ (calculateStreaks [(0 : Int), -1, -2] 0).2 :=
  (c10 [(0 : Int), -1, -2] 0 (by decide)).1

/-! ## Claim C6: dominant-subcategory selection
(`getDominantCategory`, src/index.tsx:1090-1096) -/

/-- The reducer `(a, b) => a[1] > b[1] ? a : b`. -/
def pick (a b : String × Nat) : String × Nat :=
  if a.2 > b.2 then a else b

/-- `getDominantCategory`: "N/A" when there are no entries or every count
is zero, otherwise the name left by reducing with `pick` (JS `reduce`
with no initial value starts from the first element). -/
def getDominantCategory (l : List (String × Nat)) : String :=
  if l.isEmpty || l.all (fun p => decide (p.2 = 0)) then "N/A"
  else
    match l with
    | [] => "N/A"
    | a :: t => (t.foldl pick a).1

theorem pick_foldl_spec :
    ∀ (t : List (String × Nat)) (a : String × Nat),
    (∀ q ∈ a :: t, q.2 ≤ (t.foldl pick a).2) ∧
    (t.foldl pick a) ∈ a :: t ∧
    ((a :: t).filter (fun q => decide (q.2 = (t.foldl pick a).2))).getLast?
      = some (t.foldl pick a) := by
  intro t
  induction t with
  | nil =>
    intro a
    refine ⟨?_, List.mem_cons_self a [], ?_⟩
    · intro q hq
      rcases List.mem_cons.mp hq with rfl | hq'
      · exact le_rfl
      · simp at hq'
    · simp
  | cons b t ih =>
    intro a
    have hfold : (b :: t).foldl pick a = t.foldl pick (pick a b) := rfl
    rcases ih (pick a b) with ⟨ihb, ihm, ihl⟩
    have hpa : a.2 ≤ (pick a b).2 := by unfold pick; split <;> omega
    have hpb : b.2 ≤ (pick a b).2 := by unfold pick; split <;> omega
    have hpr : (pick a b).2 ≤ (t.foldl pick (pick a b)).2 :=
      ihb (pick a b) (List.mem_cons_self _ _)
    refine ⟨?_, ?_, ?_⟩
    · intro q hq
      rw [hfold]
      rcases List.mem_cons.mp hq with rfl | hq'
      · exact le_trans hpa hpr
      · rcases List.mem_cons.mp hq' with rfl | hq''
        · exact le_trans hpb hpr
        · exact ihb q (List.mem_cons_of_mem _ hq'')
    · rw [hfold]
      rcases List.mem_cons.mp ihm with hre | hrt
      · rw [hre]
        unfold pick
        split
        · exact List.mem_cons_self _ _
        · exact List.mem_cons_of_mem _ (List.mem_cons_self _ _)
      · exact List.mem_cons_of_mem _ (List.mem_cons_of_mem _ hrt)
    · rw [hfold]
      by_cases hab : a.2 > b.2
      · have hpk : pick a b = a := if_pos hab
        rw [hpk] at ihl hpr ⊢
        have hbne : decide (b.2 = (t.foldl pick a).2) = false := by
          rw [decide_eq_false_iff_not]
          omega
        have heq : ((a :: b :: t).filter
              (fun q => decide (q.2 = (t.foldl pick a).2)))
            = ((a :: t).filter
              (fun q => decide (q.2 = (t.foldl pick a).2))) := by
          simp [List.filter_cons, hbne]
        rw [heq]
        exact ihl
      · have hpk : pick a b = b := if_neg hab
        have hab' : a.2 ≤ b.2 := le_of_not_lt hab
        rw [hpk] at ihl hpr ⊢
        by_cases hPa : decide (a.2 = (t.foldl pick b).2) = true
        · have ha2 : a.2 = (t.foldl pick b).2 := of_decide_eq_true hPa
          have hb2 : decide (b.2 = (t.foldl pick b).2) = true := by
            rw [decide_eq_true_iff]
            omega
          have heq1 : ((a :: b :: t).filter
                (fun q => decide (q.2 = (t.foldl pick b).2)))
              = a :: ((b :: t).filter
                (fun q => decide (q.2 = (t.foldl pick b).2))) := by
            simp [List.filter_cons, hPa]
          have heq2 : ((b :: t).filter
                (fun q => decide (q.2 = (t.foldl pick b).2)))
              = b :: (t.filter
                (fun q => decide (q.2 = (t.foldl pick b).2))) := by
            simp [List.filter_cons, hb2]
          rw [heq1, heq2, List.getLast?_cons_cons, ← heq2]
          exact ihl
        · have hPa' : decide (a.2 = (t.foldl pick b).2) = false :=
            Bool.eq_false_iff.mpr hPa
          have heq : ((a :: b :: t).filter
                (fun q => decide (q.2 = (t.foldl pick b).2)))
              = ((b :: t).filter
                (fun q => decide (q.2 = (t.foldl pick b).2))) := by
            simp [List.filter_cons, hPa']
          rw [heq]
          exact ihl

/-- C6 counterexample: with two subcategories tied at count 1, the code
selects the last-encountered one ("B"), not the first-encountered ("A")
as claimed — the reducer keeps the accumulator only on strictly greater
counts. -/
theorem c6_counterexample :
    getDominantCategory [("A", 1), ("B", 1)] = "B" ∧
    getDominantCategory [("A", 1), ("B", 1)] ≠ "A" := by
  refine ⟨rfl, ?_⟩
  decide

/-- C6 (amended): when every count is zero (or there are no
subcategories) the result is "N/A"; otherwise the selected subcategory is
one carrying the maximal count, and among the maximal ones it is the
LAST-encountered in the category's fixed order (so a strictly greatest
count still wins uniquely). -/
theorem c6_amended (l : List (String × Nat)) :
    ((l = [] ∨ ∀ p ∈ l, p.2 = 0) → getDominantCategory l = "N/A") ∧
    (l ≠ [] → (¬ ∀ p ∈ l, p.2 = 0) →
      ∃ p ∈ l, getDominantCategory l = p.1 ∧ (∀ q ∈ l, q.2 ≤ p.2) ∧
        (l.filter (fun q => decide (q.2 = p.2))).getLast? = some p) := by
  constructor
  · rintro (rfl | hz)
    · rfl
    · have hall : l.all (fun p => decide (p.2 = 0)) = true := by
        rw [List.all_eq_true]
        intro p hp
        simpa using hz p hp
      simp [getDominantCategory, hall]
  · intro hne hnz
    cases l with
    | nil => exact absurd rfl hne
    | cons a t =>
      have hall : (a :: t).all (fun p => decide (p.2 = 0)) = false := by
        cases hcase : (a :: t).all (fun p => decide (p.2 = 0)) with
        | false => rfl
        | true =>
          exact absurd (fun p hp => by simpa using List.all_eq_true.mp hcase p hp) hnz
      have hgd : getDominantCategory (a :: t) = (t.foldl pick a).1 := by
        simp [getDominantCategory, hall]
      rcases pick_foldl_spec t a with ⟨hb, hm, hl⟩
      exact ⟨t.foldl pick a, hm, hgd, hb, hl⟩

/-- Witness for C6's amended theorem: a strictly greatest count is
selected. -/
theorem c6_witness : getDominantCategory [("A", 2), ("B", 1)] = "A" := by
  rcases (c6_amended [("A", 2), ("B", 1)]).2 (by decide) (by decide)
    with ⟨p, hp, hgd, hbound, _⟩
  have hp2 : 2 ≤ p.2 := hbound ("A", 2) (by decide)
  rcases List.mem_cons.mp hp with rfl | hp'
  · exact hgd
  · rcases List.mem_cons.mp hp' with rfl | hp''
    · exact absurd hp2 (by decide)
    · simp at hp''

/-! ## Claim C7: word-count history on save
(JournalView `saveEntry` history logic, src/index.tsx:613-651) -/

/-- The stored history series after one save with new word count `n` at
time `now`, given the previously stored series `h`.  `lastPoint` is read
before the synthetic zero-point is pushed; when the count is unchanged
nothing is pushed (and the unsaved series equals the stored one); empty
content (`n = 0`) resets the series. -/
def histStep (h : List (Int × Nat)) (now : Int) (n : Nat) : List (Int × Nat) :=
  if 0 < n then
    let lastPoint := h.getLast?
    let h1 := if h.isEmpty then h ++ [(now - 1000, 0)] else h
    match lastPoint with
    | none => h1 ++ [(now, n)]
    | some p => if p.2 ≠ n then h1 ++ [(now, n)] else h1
  else []

theorem histStep_getLast (h : List (Int × Nat)) (t : Int) (n : Nat) (hn : 0 < n) :
    ((histStep h t n).getLast?).map Prod.snd = some n := by
  unfold histStep
  rw [if_pos hn]
  cases hl : h.getLast? with
  | none =>
    have he : h = [] := by
      cases h with
      | nil => rfl
      | cons x xs => simp at hl
    subst he
    simp
  | some p =>
    have hne : h ≠ [] := by
      intro e
      rw [e] at hl
      simp at hl
    have hie : h.isEmpty = false := by
      cases h with
      | nil => exact absurd rfl hne
      | cons x xs => rfl
    by_cases hpn : p.2 ≠ n
    · simp [hie, hpn]
    · push_neg at hpn
      simp [hie, hpn, hl]

/-- C7: (1) saving the same positive word count twice in a row changes
nothing the second time (idempotence: at most one sample is appended for
the new count); (2) the first save with a positive count into an empty
series backfills a synthetic zero sample with an earlier timestamp before
the real sample; (3) a save with word count 0 resets the series to empty;
(4) a save preserves the invariant that no two consecutive samples share
a word count. -/
theorem c7 (h : List (Int × Nat)) (t1 t2 now : Int) (n : Nat) :
    (0 < n → histStep (histStep h t1 n) t2 n = histStep h t1 n) ∧
    (0 < n → histStep [] now n = [(now - 1000, 0), (now, n)]) ∧
    histStep h now 0 = [] ∧
    (List.Chain' (fun a b => a.2 ≠ b.2) h →
      List.Chain' (fun a b => a.2 ≠ b.2) (histStep h now n)) := by
  refine ⟨?_, ?_, ?_, ?_⟩
  · intro hn
    have hlast := histStep_getLast h t1 n hn
    obtain ⟨q, hq, hq2⟩ : ∃ q, (histStep h t1 n).getLast? = some q ∧ q.2 = n := by
      cases hql : (histStep h t1 n).getLast? with
      | none => rw [hql] at hlast; simp at hlast
      | some q =>
        rw [hql] at hlast
        exact ⟨q, rfl, by simpa using hlast⟩
    have hne : histStep h t1 n ≠ [] := by
      intro e
      rw [e] at hq
      simp at hq
    have hie : (histStep h t1 n).isEmpty = false := by
      cases hcase : histStep h t1 n with
      | nil => exact absurd hcase hne
      | cons x xs => rfl
    set r := histStep h t1 n with hr
    show histStep r t2 n = r
    unfold histStep
    rw [if_pos hn, hq, hie]
    simp [hq2]
  · intro hn
    simp [histStep, hn]
  · simp [histStep]
  · intro hch
    by_cases hn : 0 < n
    · unfold histStep
      rw [if_pos hn]
      cases hl : h.getLast? with
      | none =>
        have he : h = [] := by
          cases h with
          | nil => rfl
          | cons x xs => simp at hl
        subst he
        simp
        omega
      | some p =>
        have hne : h ≠ [] := by
          intro e
          rw [e] at hl
          simp at hl
        have hie : h.isEmpty = false := by
          cases h with
          | nil => exact absurd rfl hne
          | cons x xs => rfl
        by_cases hpn : p.2 ≠ n
        · simp only [hie, Bool.false_eq_true, if_neg, if_pos hpn, ite_false]
          rw [List.chain'_append]
          refine ⟨hch, List.chain'_singleton _, ?_⟩
          intro x hx y hy
          rw [hl] at hx
          simp at hx hy
          rw [← hx, ← hy]
          simpa using hpn
        · push_neg at hpn
          simp [hie, hpn, hch]
    · have hz : n = 0 := by omega
      subst hz
      simp [histStep]

/-- Witness for C7: a concrete double save into an empty series. -/
theorem c7_witness : histStep (histStep [] 5 3) 9 3 = histStep [] 5 3 :=
  (c7 [] 5 9 0 3).1 (by decide)

/-! ## Claim C8: the Text Analyzer
(`analyzeText` and `ANALYSIS_KEYWORDS`, src/index.tsx:169-223) -/

/-- JS regex `\b`: a word boundary sits between two positions whose
word-character status differs (out of range counts as non-word). -/
def isBnd (a b : Option Char) : Bool :=
  (a.any isJsWordChar) != (b.any isJsWordChar)

/-- Fuel-driven scan counting the non-overlapping matches of the literal
keyword `kw` bracketed by `\b` on both sides, as the JS global regex
`\b<kw>\b` does: on a match, resume after the matched text.  `prev` is
the character before the current position.  Fuel `text.length + 1`
suffices since each step consumes at least one character. -/
def cmAux (kw : List Char) : Nat → Option Char → List Char → Nat
  | 0, _, _ => 0
  | _ + 1, _, [] => 0
  | f + 1, prev, c :: rest =>
      if !kw.isEmpty && kw.isPrefixOf (c :: rest) && isBnd prev (some c)
          && isBnd kw.getLast? (((c :: rest)).drop kw.length).head? then
        1 + cmAux kw f kw.getLast? ((c :: rest).drop kw.length)
      else cmAux kw f (some c) rest

/-- Count of whole-word (boundary-delimited) non-overlapping occurrences
of `kw` in `text`. -/
def countMatches (kw text : List Char) : Nat :=
  cmAux kw (text.length + 1) none text

/-- `ANALYSIS_KEYWORDS` (src/index.tsx:169-199), transcribed verbatim:
category → subcategory → keyword list, in source order. -/
def ANALYSIS_KEYWORDS : List (String × List (String × List String)) := [
  ("feeling", [
    ("Anxiety / Fear", ["anxious", "anxiety", "fear", "scared", "worry", "worried",
      "nervous", "stress", "stressful", "dread", "afraid", "panic", "panicked",
      "overwhelmed", "tense", "unease", "terror", "horror", "pressure", "threat"]),
    ("Joy / Happiness", ["happy", "joy", "joyful", "cheerful", "delighted", "ecstatic",
      "glad", "content", "pleased", "excited", "amazing", "wonderful", "fantastic",
      "great", "good", "love", "blessed", "grateful", "thankful", "vibrant"]),
    ("Sadness / Grief", ["sad", "sadness", "grief", "cry", "cried", "tears", "unhappy",
      "miserable", "depressed", "dejected", "heartbroken", "despair", "lonely",
      "alone", "empty", "down", "somber", "regret", "hurt", "pain"]),
    ("Anger / Frustration", ["angry", "anger", "mad", "furious", "rage", "frustrated",
      "annoyed", "irritated", "pissed", "livid", "resent", "bitter", "outrage",
      "fury", "hate", "agitated", "exasperated"]),
    ("Love / Affection", ["love", "loving", "care", "caring", "adore", "cherish",
      "affection", "fond", "passion", "passionate", "heartfelt", "tender", "warm",
      "connected", "appreciate", "relationship", "friend", "family"])]),
  ("topic", [
    ("Work / Career", ["work", "job", "career", "office", "company", "project",
      "task", "meeting", "email", "boss", "colleague", "coworker", "deadline",
      "presentation", "salary", "promotion", "professional", "corporate", "business"]),
    ("Family / Home", ["family", "home", "mom", "dad", "parent", "sister", "brother",
      "sibling", "kids", "children", "son", "daughter", "husband", "wife", "partner",
      "house", "apartment", "relatives"]),
    ("Health / Wellness", ["health", "healthy", "sick", "ill", "doctor", "hospital",
      "medicine", "pain", "body", "mind", "fitness", "exercise", "gym", "food",
      "diet", "sleep", "tired", "energy", "wellness", "mental health"]),
    ("Self / Personal Growth", ["i", "me", "my", "myself", "feel", "think", "believe",
      "learn", "grow", "improve", "self", "goal", "habit", "journal", "read",
      "understand", "reflect", "introspection", "mindset", "future"])]),
  ("mindset", [
    ("Positive", ["yes", "can", "will", "great", "good", "wonderful", "amazing",
      "success", "achieve", "accomplished", "proud", "confident", "hopeful",
      "optimistic", "possible", "certain", "definite", "solution", "resolve", "clear"]),
    ("Negative", ["no", "not", "can't", "won't", "bad", "terrible", "awful",
      "failure", "fail", "mistake", "wrong", "doubt", "regret", "hopeless",
      "pessimistic", "impossible", "problem", "issue", "difficult", "hard"]),
    ("Certain", ["know", "knew", "certainly", "definitely", "absolutely", "will",
      "is", "are", "was", "always", "fact", "confirm", "proven", "understand",
      "understood", "realize"]),
    ("Uncertain", ["maybe", "perhaps", "wonder", "if", "could", "might", "should",
      "possibly", "guess", "assume", "suppose", "unsure", "unclear", "question",
      "seem", "appear"])]),
  ("time", [
    ("Past", ["yesterday", "before", "ago", "last", "past", "remembered", "recalled",
      "reflected", "was", "were", "had", "did", "used to", "previously", "back then",
      "history"]),
    ("Present", ["today", "now", "currently", "present", "is", "am", "are", "doing",
      "feeling", "thinking", "at the moment", "this", "here"]),
    ("Future", ["tomorrow", "future", "next", "soon", "will", "plan", "planning",
      "goal", "hope", "wish", "anticipate", "expect", "looking forward", "going to",
      "someday"])]),
  ("perspective", [
    ("I (Self-focused)", ["i", "me", "my", "mine", "myself"]),
    ("We (Group-focused)", ["we", "us", "our", "ours", "ourselves"]),
    ("Them (Other-focused)", ["he", "she", "they", "him", "her", "them", "his",
      "hers", "theirs", "that person", "people"])])]

/-- `analyzeText` (src/index.tsx:205-223): for every category and
subcategory, sum over the subcategory's keywords the number of
boundary-delimited matches of `\b<keyword>\b` in the lower-cased text.
(The source's unused `words` binding and the no-op
`keyword.replace("'", "'")` are dropped; the per-keyword regexes run on
`text.toLowerCase()`, embedded as the ASCII-lowered character list.) -/
def analyzeText (text : String) : List (String × List (String × Nat)) :=
  let t := text.data.map toLowerChar
  ANALYSIS_KEYWORDS.map (fun cat =>
    (cat.1, cat.2.map (fun sub =>
      (sub.1, sub.2.foldl (fun acc kw => acc + countMatches kw.data t) 0))))

/-- Read one subcategory count out of an `AnalysisResult`. -/
def getCount (r : List (String × List (String × Nat))) (cat sub : String) : Nat :=
  (mapGet ((mapGet r cat).getD []) sub).getD 0

/-- C8: on "I am anxious and scared today" the analyzer counts at least 2
for feeling / "Anxiety / Fear" ("anxious", "scared") and at least 1 for
time / Present ("am", "today"); every count is a natural number (hence
non-negative), and the function is pure — re-running it on the same input
yields the identical result. -/
theorem c8 :
    2 ≤ getCount (analyzeText "I am anxious and scared today") "feeling" "Anxiety / Fear" ∧
    1 ≤ getCount (analyzeText "I am anxious and scared today") "time" "Present" ∧
    (∀ s : String, analyzeText s = analyzeText s) ∧
    (∀ cat sub : String,
      0 ≤ getCount (analyzeText "I am anxious and scared today") cat sub) :=
  ⟨by decide, by decide, fun _ => rfl, fun _ _ => Nat.zero_le _⟩

/-! ## Claim C9: the Word Cloud Builder
(`WordCloud` / `STOP_WORDS`, src/index.tsx:897-935) -/

/-- `STOP_WORDS` (src/index.tsx:897), in source order. -/
def STOP_WORDS : List String :=
  ["a", "an", "and", "are", "as", "at", "be", "but", "by", "for", "has", "have",
   "in", "is", "it", "its", "of", "on", "that", "the", "to", "was", "were", "with"]

/-- The tokens of `text.toLowerCase().match(/\b[a-z]{3,}\b/g)`: a match of
that regex is exactly a maximal run of word characters that consists
solely of `[a-z]` and has length ≥ 3 (a word-character run adjacent to a
digit or underscore has no boundary there, so partial runs never match). -/
def tokensOf (text : String) : List String :=
  ((runsAux isJsWordChar [] (text.data.map toLowerChar)).filter
    (fun r => decide (3 ≤ r.length) && r.all isLowerAlpha)).map String.mk

/-- `wordCounts.set(word, (wordCounts.get(word) || 0) + 1)`: bump the
count in place, appending a fresh word at the end (JS `Map` preserves
first-insertion order). -/
def bumpWord : List (String × Nat) → String → List (String × Nat)
  | [], w => [(w, 1)]
  | (k, c) :: t, w => if k = w then (k, c + 1) :: t else (k, c) :: bumpWord t w

/-- The frequency map of the word-cloud builder: every non-stop-word
token is counted; entries are ordered by first occurrence. -/
def wordCounts (text : String) : List (String × Nat) :=
  (tokensOf text).foldl (fun m w => if w ∈ STOP_WORDS then m else bumpWord m w) []

/-- The total order embedding the stable JS sort
`(a, b) => b.count - a.count`: descending count, ties by ascending
insertion index (stability). -/
def wcLe (a b : Nat × (String × Nat)) : Prop :=
  b.2.2 < a.2.2 ∨ (a.2.2 = b.2.2 ∧ a.1 ≤ b.1)

instance : DecidableRel wcLe := fun a b => by
  unfold wcLe
  infer_instance

instance : IsTotal (Nat × (String × Nat)) wcLe := by
  constructor
  intro a b
  unfold wcLe
  omega

instance : IsTrans (Nat × (String × Nat)) wcLe := by
  constructor
  intro a b c
  unfold wcLe
  omega

/-- The frequency entries tagged with their first-seen position and
stably sorted by descending count. -/
def sortedIndexed (text : String) : List (Nat × (String × Nat)) :=
  ((wordCounts text).enum).insertionSort wcLe

/-- `sortedWords`: the top 50 of the sorted frequency list
(`.slice(0, 50)`), still carrying the first-seen indices. -/
def rankedWords (text : String) : List (Nat × (String × Nat)) :=
  (sortedIndexed text).take 50

/-- The `fontSize` computation for one entry: `minFontSize = 16`,
`maxFontSize = 36`, linear in the count when `maxCount > minCount`,
the midpoint when they coincide (the remaining branch keeps the initial
`minFontSize`). -/
def weightFn (minCount maxCount c : Nat) : ℚ :=
  if maxCount > minCount then
    16 + (((c : ℚ) - (minCount : ℚ)) / ((maxCount : ℚ) - (minCount : ℚ))) * (36 - 16)
  else if maxCount = minCount then (16 + 36) / 2
  else 16

/-- The rendered word cloud: each kept word with its display weight
(`fontSize`).  `minCount` is the last kept entry's count
(`sortedWords[sortedWords.length - 1].count`, defaulting to 1),
`maxCount` the first's (`sortedWords[0].count`); an empty list renders
nothing. -/
def wordCloud (text : String) : List (String × ℚ) :=
  let sw := rankedWords text
  if sw.isEmpty then []
  else
    let minCount : Nat := ((sw.getLast?).map (fun e => e.2.2)).getD 1
    let maxCount : Nat := ((sw.head?).map (fun e => e.2.2)).getD 1
    sw.map (fun e => (e.2.1, weightFn minCount maxCount e.2.2))

theorem bump_lookup (m : List (String × Nat)) (w w' : String) :
    mapGet (bumpWord m w) w' =
      if w' = w then some ((mapGet m w).getD 0 + 1) else mapGet m w' := by
  induction m with
  | nil =>
    by_cases h : w' = w
    · simp [bumpWord, mapGet, h]
    · simp [bumpWord, mapGet, h, Ne.symm h]
  | cons p t ih =>
    rcases p with ⟨k, c⟩
    by_cases hk : k = w
    · subst hk
      by_cases h : w' = k
      · subst h
        simp [bumpWord, mapGet]
      · simp [bumpWord, mapGet, h, Ne.symm h]
    · by_cases h : w' = k
      · subst h
        simp [bumpWord, mapGet, hk, Ne.symm hk]
      · simp [bumpWord, mapGet, hk, h, Ne.symm h, ih]

theorem bump_keys (m : List (String × Nat)) (w x : String) :
    x ∈ (bumpWord m w).map Prod.fst ↔ x = w ∨ x ∈ m.map Prod.fst := by
  induction m with
  | nil => simp [bumpWord]
  | cons p t ih =>
    rcases p with ⟨k, c⟩
    by_cases hk : k = w
    · subst hk
      simp [bumpWord]
    · simp only [bumpWord, if_neg hk, List.map_cons, List.mem_cons, ih]
      tauto

theorem bump_keys_nodup (m : List (String × Nat)) (w : String)
    (h : (m.map Prod.fst).Nodup) : ((bumpWord m w).map Prod.fst).Nodup := by
  induction m with
  | nil => simp [bumpWord]
  | cons p t ih =>
    rcases p with ⟨k, c⟩
    have hp : k ∉ t.map Prod.fst := (List.nodup_cons.mp (by simpa using h)).1
    have ht : (t.map Prod.fst).Nodup := (List.nodup_cons.mp (by simpa using h)).2
    by_cases hk : k = w
    · subst hk
      simp only [bumpWord, if_pos rfl, List.map_cons]
      exact List.nodup_cons.mpr ⟨hp, ht⟩
    · simp only [bumpWord, if_neg hk, List.map_cons]
      refine List.nodup_cons.mpr ⟨?_, ih ht⟩
      rw [bump_keys]
      rintro (rfl | hmem)
      · exact hk rfl
      · exact hp hmem

theorem wordCounts_fold_lookup :
    ∀ (toks : List String) (m : List (String × Nat)) (w : String),
    mapGet (toks.foldl (fun m t => if t ∈ STOP_WORDS then m else bumpWord m t) m) w =
      if w ∈ STOP_WORDS then mapGet m w
      else
        match mapGet m w with
        | some c => some (c + toks.count w)
        | none => if 0 < toks.count w then some (toks.count w) else none := by
  intro toks
  induction toks with
  | nil =>
    intro m w
    by_cases hw : w ∈ STOP_WORDS
    · simp [hw]
    · simp only [List.foldl_nil, List.count_nil, if_neg hw]
      cases hm : mapGet m w <;> simp
  | cons t ts ih =>
    intro m w
    rw [List.foldl_cons]
    by_cases hts : t ∈ STOP_WORDS
    · rw [if_pos hts, ih]
      by_cases hw : w ∈ STOP_WORDS
      · simp [hw]
      · have hwt : w ≠ t := fun e => hw (e ▸ hts)
        rw [if_neg hw, if_neg hw]
        rw [List.count_cons_of_ne hwt]
    · rw [if_neg hts, ih]
      by_cases hw : w ∈ STOP_WORDS
      · have hwt : w ≠ t := fun e => hts (e ▸ hw)
        rw [if_pos hw, if_pos hw, bump_lookup, if_neg hwt]
      · rw [if_neg hw, if_neg hw, bump_lookup]
        by_cases hwt : w = t
        · subst hwt
          rw [if_pos rfl, List.count_cons_self]
          cases hm : mapGet m w with
          | some c => simp [hm]; omega
          | none => simp [hm]; omega
        · rw [if_neg hwt, List.count_cons_of_ne hwt]

theorem wordCounts_keys_nodup (text : String) :
    ((wordCounts text).map Prod.fst).Nodup := by
  unfold wordCounts
  generalize tokensOf text = toks
  have hgen : ∀ (toks : List String) (m : List (String × Nat)),
      (m.map Prod.fst).Nodup →
      ((toks.foldl (fun m t => if t ∈ STOP_WORDS then m else bumpWord m t) m).map
        Prod.fst).Nodup := by
    intro toks
    induction toks with
    | nil => intro m hm; simpa using hm
    | cons t ts ih =>
      intro m hm
      rw [List.foldl_cons]
      by_cases hts : t ∈ STOP_WORDS
      · rw [if_pos hts]
        exact ih m hm
      · rw [if_neg hts]
        exact ih _ (bump_keys_nodup m t hm)
  exact hgen toks [] (by simp)

theorem mapGet_of_mem_nodup {β : Type} (m : List (String × β)) (p : String × β)
    (hnd : (m.map Prod.fst).Nodup) (hp : p ∈ m) : mapGet m p.1 = some p.2 := by
  induction m with
  | nil => simp at hp
  | cons q t ih =>
    have hq : q.1 ∉ t.map Prod.fst := (List.nodup_cons.mp (by simpa using hnd)).1
    have ht : (t.map Prod.fst).Nodup := (List.nodup_cons.mp (by simpa using hnd)).2
    rcases List.mem_cons.mp hp with rfl | hpt
    · rcases p with ⟨a, b⟩
      simp [mapGet]
    · rcases q with ⟨a, b⟩
      have hne : a ≠ p.1 := by
        intro e
        apply hq
        show a ∈ t.map Prod.fst
        rw [e]
        exact List.mem_map_of_mem Prod.fst hpt
      simp [mapGet, hne, ih ht hpt]

/-- Every entry of the frequency map is a non-stop-word token whose count
is its exact frequency among the tokens (hence positive). -/
theorem wordCounts_char (text : String) (p : String × Nat) (hp : p ∈ wordCounts text) :
    p.1 ∉ STOP_WORDS ∧ p.2 = (tokensOf text).count p.1 ∧ 0 < p.2 := by
  have hlook : mapGet (wordCounts text) p.1 = some p.2 :=
    mapGet_of_mem_nodup _ p (wordCounts_keys_nodup text) hp
  have hfold := wordCounts_fold_lookup (tokensOf text) [] p.1
  rw [show ((tokensOf text).foldl
      (fun m t => if t ∈ STOP_WORDS then m else bumpWord m t) [] : List (String × Nat))
      = wordCounts text from rfl] at hfold
  rw [hlook] at hfold
  by_cases hst : p.1 ∈ STOP_WORDS
  · rw [if_pos hst] at hfold
    simp [mapGet] at hfold
  · rw [if_neg hst] at hfold
    simp only [mapGet] at hfold
    by_cases hc : 0 < (tokensOf text).count p.1
    · rw [if_pos hc] at hfold
      have heq : p.2 = (tokensOf text).count p.1 := by injection hfold
      exact ⟨hst, heq, by omega⟩
    · rw [if_neg hc] at hfold
      simp at hfold

theorem sortedIndexed_pairwise (text : String) :
    (sortedIndexed text).Pairwise wcLe :=
  List.sorted_insertionSort wcLe ((wordCounts text).enum)

theorem sortedIndexed_perm (text : String) :
    List.Perm (sortedIndexed text) ((wordCounts text).enum) :=
  List.perm_insertionSort wcLe ((wordCounts text).enum)

theorem sortedIndexed_idx_nodup (text : String) :
    ((sortedIndexed text).map Prod.fst).Nodup := by
  have hmap := (sortedIndexed_perm text).map Prod.fst
  rw [hmap.nodup_iff, List.enum_map_fst]
  exact List.nodup_range _

theorem rankedWords_pairwise (text : String) :
    (rankedWords text).Pairwise
      (fun a b => b.2.2 < a.2.2 ∨ (a.2.2 = b.2.2 ∧ a.1 < b.1)) := by
  have h1 : (rankedWords text).Pairwise wcLe :=
    (sortedIndexed_pairwise text).sublist (List.take_sublist _ _)
  have h2 : ((rankedWords text).map Prod.fst).Nodup :=
    (sortedIndexed_idx_nodup text).sublist ((List.take_sublist 50 _).map Prod.fst)
  have h3 : (rankedWords text).Pairwise (fun a b => a.1 ≠ b.1) :=
    List.pairwise_map.mp h2
  refine (h1.and h3).imp ?_
  intro a b hab
  rcases hab with ⟨hle | ⟨he, hle⟩, hne⟩
  · exact Or.inl hle
  · exact Or.inr ⟨he, lt_of_le_of_ne hle hne⟩

theorem rankedWords_mem_wordCounts (text : String) (p : Nat × (String × Nat))
    (hp : p ∈ rankedWords text) : p.2 ∈ wordCounts text := by
  have h1 : p ∈ sortedIndexed text := (List.take_sublist 50 _).subset hp
  have h2 : p ∈ (wordCounts text).enum := (sortedIndexed_perm text).subset h1
  exact List.snd_mem_of_mem_enum h2

theorem tokensOf_shape (text : String) (w : String) (hw : w ∈ tokensOf text) :
    3 ≤ w.length ∧ w.data.all isLowerAlpha = true := by
  unfold tokensOf at hw
  rcases List.mem_map.mp hw with ⟨r, hr, rfl⟩
  rcases List.mem_filter.mp hr with ⟨_, hcond⟩
  have hc2 : 3 ≤ r.length ∧ r.all isLowerAlpha = true := by simpa using hcond
  exact hc2

theorem pairwise_getLast {α : Type} (R : α → α → Prop) :
    ∀ (l : List α) (z : α), l.Pairwise R → l.getLast? = some z →
      ∀ p ∈ l, p = z ∨ R p z := by
  intro l
  induction l with
  | nil => intro z _ hz; simp at hz
  | cons a t ih =>
    intro z h hz p hp
    cases t with
    | nil =>
      have ha : a = z := by simpa using hz
      have hpa : p = a := by simpa using hp
      exact Or.inl (hpa.trans ha)
    | cons b t' =>
      have hz' : (b :: t').getLast? = some z := by
        rw [List.getLast?_cons_cons] at hz
        exact hz
      rcases List.mem_cons.mp hp with rfl | hpt
      · have hzmem : z ∈ b :: t' := List.mem_of_mem_getLast? hz'
        exact Or.inr ((List.pairwise_cons.mp h).1 z hzmem)
      · exact ih z (List.pairwise_cons.mp h).2 hz' p hpt

theorem weightFn_bounds (mn mx c : Nat) (hmn : mn ≤ c) (hmx : c ≤ mx) :
    16 ≤ weightFn mn mx c ∧ weightFn mn mx c ≤ 36 := by
  unfold weightFn
  by_cases hlt : mx > mn
  · rw [if_pos hlt]
    have hden : (0 : ℚ) < (mx : ℚ) - (mn : ℚ) := by
      have : (mn : ℚ) < (mx : ℚ) := by exact_mod_cast hlt
      linarith
    have hnum0 : (0 : ℚ) ≤ (c : ℚ) - (mn : ℚ) := by
      have : (mn : ℚ) ≤ (c : ℚ) := by exact_mod_cast hmn
      linarith
    have hscale0 : (0 : ℚ) ≤ ((c : ℚ) - (mn : ℚ)) / ((mx : ℚ) - (mn : ℚ)) :=
      div_nonneg hnum0 (le_of_lt hden)
    have hscale1 : ((c : ℚ) - (mn : ℚ)) / ((mx : ℚ) - (mn : ℚ)) ≤ 1 := by
      rw [div_le_one hden]
      have : (c : ℚ) ≤ (mx : ℚ) := by exact_mod_cast hmx
      linarith
    constructor
    · nlinarith
    · nlinarith
  · have heq : mx = mn := by omega
    rw [if_neg hlt, if_pos heq]
    norm_num

theorem weightFn_collapse (mn c : Nat) : weightFn mn mn c = 26 := by
  unfold weightFn
  rw [if_neg (lt_irrefl mn), if_pos rfl]
  norm_num

/-- C9: the Word Cloud Builder keeps at most 50 entries; the displayed
words are exactly the ranked words; every kept entry is a case-folded
alphabetic token of length ≥ 3 that is not a stop word, carrying its
exact frequency; the kept list is ordered by strictly descending count
with ties in ascending first-seen order; everything cut by the top-50
limit has a count no larger than anything kept; every display weight lies
on the 16–36 scale; and when all surviving counts are equal every weight
collapses to the midpoint 26. -/
theorem c9 (text : String) :
    (wordCloud text).length ≤ 50 ∧
    (wordCloud text).map Prod.fst = (rankedWords text).map (fun e => e.2.1) ∧
    (∀ p ∈ rankedWords text, p.2.1 ∈ tokensOf text ∧ p.2.1 ∉ STOP_WORDS ∧
      3 ≤ p.2.1.length ∧ p.2.2 = (tokensOf text).count p.2.1) ∧
    (rankedWords text).Pairwise
      (fun a b => b.2.2 < a.2.2 ∨ (a.2.2 = b.2.2 ∧ a.1 < b.1)) ∧
    (∀ p ∈ rankedWords text, ∀ q ∈ (sortedIndexed text).drop 50, q.2.2 ≤ p.2.2) ∧
    (∀ pf ∈ wordCloud text, 16 ≤ pf.2 ∧ pf.2 ≤ 36) ∧
    ((∀ p ∈ rankedWords text, ∀ q ∈ rankedWords text, p.2.2 = q.2.2) →
      ∀ pf ∈ wordCloud text, pf.2 = 26) := by
  have htok : ∀ p ∈ rankedWords text, p.2.1 ∈ tokensOf text ∧ p.2.1 ∉ STOP_WORDS ∧
      3 ≤ p.2.1.length ∧ p.2.2 = (tokensOf text).count p.2.1 := by
    intro p hp
    have hmem := rankedWords_mem_wordCounts text p hp
    obtain ⟨hst, hcnt, hpos⟩ := wordCounts_char text p.2 hmem
    have htk : p.2.1 ∈ tokensOf text :=
      List.count_pos_iff_mem.mp (by rw [← hcnt]; exact hpos)
    exact ⟨htk, hst, (tokensOf_shape text p.2.1 htk).1, hcnt⟩
  have hdrop : ∀ p ∈ rankedWords text, ∀ q ∈ (sortedIndexed text).drop 50,
      q.2.2 ≤ p.2.2 := by
    have hsp' : List.Pairwise wcLe
        ((sortedIndexed text).take 50 ++ (sortedIndexed text).drop 50) := by
      rw [List.take_append_drop]
      exact sortedIndexed_pairwise text
    intro p hp q hq
    have hcross := (List.pairwise_append.mp hsp').2.2 p hp q hq
    rcases hcross with h | ⟨h, _⟩
    · exact le_of_lt h
    · exact h.ge
  by_cases hemp : (rankedWords text).isEmpty = true
  · have hrw : rankedWords text = [] := List.isEmpty_iff.mp hemp
    have hwcE : wordCloud text = [] := by
      simp [wordCloud, hemp]
    refine ⟨by simp [hwcE], by simp [hwcE, hrw], htok, rankedWords_pairwise text,
      hdrop, ?_, ?_⟩
    · intro pf hpf
      rw [hwcE] at hpf
      simp at hpf
    · intro _ pf hpf
      rw [hwcE] at hpf
      simp at hpf
  · have hemp' : (rankedWords text).isEmpty = false := Bool.eq_false_iff.mpr hemp
    obtain ⟨first, rest, hr⟩ : ∃ a t, rankedWords text = a :: t := by
      refine List.exists_cons_of_ne_nil ?_
      intro e
      rw [e] at hemp'
      simp at hemp'
    have hhead : (rankedWords text).head? = some first := by rw [hr]; rfl
    obtain ⟨z, hz⟩ : ∃ z, (rankedWords text).getLast? = some z := by
      cases hcase : (rankedWords text).getLast? with
      | none =>
        rw [hr] at hcase
        simp at hcase
      | some z => exact ⟨z, rfl⟩
    have hwc : wordCloud text = (rankedWords text).map
        (fun e => (e.2.1, weightFn z.2.2 first.2.2 e.2.2)) := by
      simp [wordCloud, hemp', hz, hhead]
    have hpw : (rankedWords text).Pairwise wcLe :=
      (sortedIndexed_pairwise text).sublist (List.take_sublist _ _)
    have hminb : ∀ p ∈ rankedWords text, z.2.2 ≤ p.2.2 := by
      intro p hp
      rcases pairwise_getLast wcLe (rankedWords text) z hpw hz p hp with rfl | hR
      · exact le_rfl
      · rcases hR with h | ⟨h, _⟩
        · exact le_of_lt h
        · exact h.ge
    have hmaxb : ∀ p ∈ rankedWords text, p.2.2 ≤ first.2.2 := by
      intro p hp
      rw [hr] at hp
      have hpw' := hr ▸ hpw
      rcases List.mem_cons.mp hp with rfl | hpt
      · exact le_rfl
      · have hfp := (List.pairwise_cons.mp hpw').1 p hpt
        rcases hfp with h | ⟨h, _⟩
        · exact le_of_lt h
        · exact h.ge
    refine ⟨?_, ?_, htok, rankedWords_pairwise text, hdrop, ?_, ?_⟩
    · rw [hwc, List.length_map]
      exact List.length_take_le _ _
    · rw [hwc, List.map_map]
      rfl
    · intro pf hpf
      rw [hwc] at hpf
      rcases List.mem_map.mp hpf with ⟨e, he, rfl⟩
      exact weightFn_bounds _ _ _ (hminb e he) (hmaxb e he)
    · intro hall pf hpf
      rw [hwc] at hpf
      rcases List.mem_map.mp hpf with ⟨e, he, rfl⟩
      have hfz : first.2.2 = z.2.2 :=
        hall first (by rw [hr]; exact List.mem_cons_self _ _) z
          (List.mem_of_mem_getLast? hz)
      show weightFn z.2.2 first.2.2 e.2.2 = 26
      rw [hfz]
      exact weightFn_collapse _ _

/-- Witness for C9: on "cat dog" every surviving count equals 1, so both
display weights collapse to the midpoint 26. -/
theorem c9_witness : (wordCloud "cat dog").map Prod.snd = [26, 26] := by
  have h := c9 "cat dog"
  have hcoll := h.2.2.2.2.2.2 (by decide)
  have hwords : (wordCloud "cat dog").map Prod.fst = ["cat", "dog"] := by
    rw [h.2.1]
    decide
  cases hcl : wordCloud "cat dog" with
  | nil =>
    rw [hcl] at hwords
    simp at hwords
  | cons a t =>
    cases t with
    | nil =>
      rw [hcl] at hwords
      simp at hwords
    | cons b t' =>
      cases t' with
      | nil =>
        have ha : a.2 = 26 := hcoll a (by rw [hcl]; exact List.mem_cons_self _ _)
        have hb : b.2 = 26 :=
          hcoll b (by rw [hcl]; exact List.mem_cons_of_mem _ (List.mem_cons_self _ _))
        simp [ha, hb]
      | cons c t'' =>
        rw [hcl] at hwords
        simp at hwords
